import Mathlib

/-!
Shallow embedding of the threads record store.

Embedded modules:
* src/threads/models.py    -- status sets and the record data model
* src/threads/storage.py   -- record codec (parse and serialize), search engine
* src/threads/workspace.py -- scope resolver and reference resolver

Modelling conventions:
* Python strings are Lean `String`; character-level operations work on
  `List Char`.
* Absolute filesystem paths are `List String` (the path components from the
  filesystem root; `[]` is the filesystem root itself).  Components are
  assumed non-empty and free of the separator character.
* The filesystem is an explicit finite collection of directory paths and file
  paths.
* The external frontmatter library is modelled at the structured level: a
  document is a parsed-or-unparseable header (list of string key/value pairs)
  together with the content string.  The library's load and dumps functions
  are taken as inverse on that structure; everything the repository itself
  does with the document (section grammar, bullet grammars, serialization) is
  embedded from the source.
* Regular expressions from storage.py are embedded as deterministic
  character-list parsers; lazy groups are embedded by minimal-split search,
  matching the semantics of the Python patterns on newline-free lines.
-/

deriving instance DecidableEq for Except

namespace Threads

/-- Whitespace characters recognised by Python str.strip and the regex
class backslash-s (ASCII fragment). -/
def isPyWs (c : Char) : Bool :=
  c == ' ' || c == '\t' || c == '\n' || c == '\r' ||
  c == Char.ofNat 11 || c == Char.ofNat 12

/-- Python str.strip on a character list. -/
def pyStripList (cs : List Char) : List Char :=
  ((cs.dropWhile isPyWs).reverse.dropWhile isPyWs).reverse

/-- Python str.strip. -/
def pyStrip (s : String) : String := ⟨pyStripList s.toList⟩

/-- Python str.rstrip on a character list. -/
def pyRstripList (cs : List Char) : List Char :=
  (cs.reverse.dropWhile isPyWs).reverse

/-- Python str.rstrip. -/
def pyRstrip (s : String) : String := ⟨pyRstripList s.toList⟩

/-- Word characters of the regex class backslash-w (ASCII fragment). -/
def isWordChar (c : Char) : Bool := c.isAlphanum || c == '_'

/-- String prefix test (Python str.startswith), on the character lists. -/
def strStartsWith (s pre : String) : Bool := pre.toList.isPrefixOf s.toList

/-- Python str.lower (ASCII fragment). -/
def strLower (s : String) : String := ⟨s.toList.map Char.toLower⟩

/-- Contiguous-substring test, the Python `in` operator on strings. -/
def listInfix (needle : List Char) : List Char → Bool
  | [] => needle.isEmpty
  | h :: t => needle.isPrefixOf (h :: t) || listInfix needle t

/-- Lexicographic order on character lists by code point; this is how
Python compares strings. -/
def charListLe : List Char → List Char → Bool
  | [], _ => true
  | _ :: _, [] => false
  | a :: as, b :: bs => if a < b then true else if b < a then false else charListLe as bs

/-- Stable insertion used by the sort below. -/
def insertBy (le : α → α → Bool) (x : α) : List α → List α
  | [] => [x]
  | y :: ys => if le x y then x :: y :: ys else y :: insertBy le x ys

/-- Stable sort by a boolean comparison; for a total preorder this has the
same input/output behaviour as the stable Python sorted builtin. -/
def sortBy (le : α → α → Bool) : List α → List α
  | [] => []
  | x :: xs => insertBy le x (sortBy le xs)

/-- Split a character list at every occurrence of a separator character;
empty pieces are kept, as for Python str.split with an argument. -/
def splitCharList (sep : Char) (cs : List Char) : List (List Char) :=
  cs.foldr (fun c acc =>
    match acc with
    | [] => [[]]
    | h :: t => if c = sep then [] :: h :: t else (c :: h) :: t) [[]]

/-- Python str.split with a one-character separator. -/
def splitStr (sep : Char) (s : String) : List String :=
  (splitCharList sep s.toList).map (fun cs => (⟨cs⟩ : String))

/-- Lower-case hexadecimal digits, the regex class [a-f0-9]. -/
def isHexLower (c : Char) : Bool := c.isDigit || ('a' ≤ c && c ≤ 'f')

/-- Python content.split on a single newline separator. -/
def splitLines (s : String) : List String := splitStr '\n' s

/-- Python sep.join. -/
def joinWith (sep : String) : List String → String
  | [] => ""
  | [x] => x
  | x :: xs => x ++ sep ++ joinWith sep xs

/-- Python newline.join. -/
def joinLines (ls : List String) : String := joinWith "\n" ls

/-- Character-level counterpart of the newline join, for reasoning about
joined line lists. -/
def joinCharL : List (List Char) → List Char
  | [] => []
  | [x] => x
  | x :: xs => x ++ '\n' :: joinCharL xs

/-- SECTION_RE: a line matching the anchored pattern hash-hash-space,
word characters, optional trailing whitespace; returns the section name.
Embeds storage.SECTION_RE in multiline mode, applied line by line. -/
def sectionHeader? (line : String) : Option String :=
  if strStartsWith line "## " then
    let cs := line.toList.drop 3
    let w := cs.takeWhile isWordChar
    if w.isEmpty then none
    else if (cs.dropWhile isWordChar).all isPyWs then some ⟨w⟩ else none
  else none

/-- Section splitter sweep over the lines of the document: each header
line opens a section collecting the following lines until the next header;
a finished section's content is the collected lines joined and stripped.
Text before the first header is ignored, as in storage.parse_sections
(the accumulator holds the open section name and its lines in reverse). -/
def buildSections (lines : List String) (cur : Option (String × List String)) :
    List (String × String) :=
  match lines, cur with
  | [], none => []
  | [], some (n, acc) => [(n, pyStrip (joinLines acc.reverse))]
  | l :: ls, cur =>
    match sectionHeader? l with
    | some n =>
      (match cur with
        | none => []
        | some (m, acc) => [(m, pyStrip (joinLines acc.reverse))]) ++
        buildSections ls (some (n, []))
    | none =>
      match cur with
      | none => buildSections ls none
      | some (n, acc) => buildSections ls (some (n, l :: acc))

/-- storage.parse_sections: split markdown content into name/content pairs
(ordered; a later section of the same name overrides at lookup time, as
for the Python dict). -/
def parse_sections (content : String) : List (String × String) :=
  buildSections (splitLines content) none

/-- Python dict lookup with default over an assignment list where a later
assignment to the same key overrides an earlier one. -/
def sectGet (secs : List (String × String)) (k d : String) : String :=
  match secs.reverse.find? (fun kv => kv.1 == k) with
  | some kv => kv.2
  | none => d

/-- models.Note. -/
structure Note where
  text : String
  hash : String
deriving DecidableEq, Repr

/-- models.Todo. -/
structure Todo where
  text : String
  hash : String
  checked : Bool
deriving DecidableEq, Repr

/-- models.LogEntry. -/
structure LogEntry where
  time : String
  text : String
deriving DecidableEq, Repr

/-- Tail of the note and todo patterns: optional whitespace, the literal
html comment opener, optional whitespace, exactly four lower-case hex
digits, optional whitespace, the literal comment closer, end of line.
Returns the hash group on success. -/
def commentTail? (cs : List Char) : Option String :=
  let r1 := cs.dropWhile isPyWs
  if "<!--".toList.isPrefixOf r1 then
    let r2 := (r1.drop 4).dropWhile isPyWs
    let h := r2.take 4
    if h.length == 4 && h.all isHexLower &&
        ((r2.drop 4).dropWhile isPyWs == "-->".toList) then
      some ⟨h⟩
    else none
  else none

/-- Lazy group of NOTE_RE and TODO_RE: the shortest non-empty prefix of
the remaining characters whose remainder is a well-formed comment tail.
Returns the text group and the hash group. -/
def lazyTextSplit (acc : List Char) : List Char → Option (String × String)
  | [] => none
  | c :: rest =>
    match commentTail? rest with
    | some h => some (⟨(c :: acc).reverse⟩, h)
    | none => lazyTextSplit (c :: acc) rest

/-- NOTE_RE applied to one (already stripped) line. -/
def noteLine? (line : String) : Option Note :=
  if strStartsWith line "- " then
    match lazyTextSplit [] (line.toList.drop 2) with
    | some (t, h) => some ⟨t, h⟩
    | none => none
  else none

/-- storage.parse_notes. -/
def parse_notes (text : String) : List Note :=
  (splitLines text).filterMap (fun l =>
    let s := pyStrip l
    if s == "" then none else noteLine? s)

/-- TODO_RE applied to one (already stripped) line. -/
def todoLine? (line : String) : Option Todo :=
  if strStartsWith line "- [" then
    match line.toList.drop 3 with
    | c :: ']' :: ' ' :: rest =>
      if c == ' ' || c == 'x' then
        match lazyTextSplit [] rest with
        | some (t, h) => some ⟨t, h, c == 'x'⟩
        | none => none
      else none
    | _ => none
  else none

/-- storage.parse_todos. -/
def parse_todos (text : String) : List Todo :=
  (splitLines text).filterMap (fun l =>
    let s := pyStrip l
    if s == "" then none else todoLine? s)

/-- Shape of the LOG_DATE_RE date group: four digits, dash, two digits,
dash, two digits. -/
def isDateShape (cs : List Char) : Bool :=
  match cs with
  | [a, b, c, d, '-', e, f, '-', g, h] =>
    a.isDigit && b.isDigit && c.isDigit && d.isDigit &&
    e.isDigit && f.isDigit && g.isDigit && h.isDigit
  | _ => false

/-- Shape of the LOG_ENTRY_RE time group: two digits, colon, two digits. -/
def isTimeShape (cs : List Char) : Bool :=
  match cs with
  | [a, b, ':', c, d] => a.isDigit && b.isDigit && c.isDigit && d.isDigit
  | _ => false

/-- LOG_DATE_RE applied to one (already rstripped) line. -/
def logDate? (line : String) : Option String :=
  if strStartsWith line "### " then
    let cs := line.toList.drop 4
    if isDateShape (cs.take 10) && (cs.drop 10).all isPyWs then
      some ⟨cs.take 10⟩
    else none
  else none

/-- LOG_ENTRY_RE applied to one (already rstripped) line. -/
def logEntry? (line : String) : Option LogEntry :=
  if strStartsWith line "- **" then
    let cs := line.toList.drop 4
    if isTimeShape (cs.take 5) then
      match cs.drop 5 with
      | '*' :: '*' :: ' ' :: rest =>
        if rest.isEmpty then none else some ⟨⟨cs.take 5⟩, ⟨rest⟩⟩
      | _ => none
    else none
  else none

/-- The log mapping: insertion-ordered date keys, each with its ordered
entry list.  Models the Python dict from date strings to entry lists. -/
abbrev Log := List (String × List LogEntry)

/-- Membership test for a date key, as the Python `in` operator on dicts. -/
def logHasDate (log : Log) (d : String) : Bool := log.any (fun kv => kv.1 == d)

/-- Append an entry to the list stored under an existing date key. -/
def logAppendEntry (log : Log) (d : String) (e : LogEntry) : Log :=
  log.map (fun kv => if kv.1 == d then (kv.1, kv.2 ++ [e]) else kv)

/-- Line loop of storage.parse_log: date headings select the current date,
entry lines append under the current date, anything else is dropped. -/
def parseLogGo : List String → Option String → Log → Log
  | [], _, acc => acc
  | line :: ls, cur, acc =>
    let l := pyRstrip line
    if l == "" then parseLogGo ls cur acc
    else
      match logDate? l with
      | some d =>
        parseLogGo ls (some d) (if logHasDate acc d then acc else acc ++ [(d, [])])
      | none =>
        match cur with
        | some d =>
          match logEntry? l with
          | some e => parseLogGo ls cur (logAppendEntry acc d e)
          | none => parseLogGo ls cur acc
        | none => parseLogGo ls cur acc

/-- storage.parse_log. -/
def parse_log (text : String) : Log := parseLogGo (splitLines text) none []

/-- models.Thread, restricted to its serialized content fields.  The
file-location metadata (file_path, category, project) is not part of the
serialized document and is omitted from the embedding. -/
structure Thread where
  id : String
  name : String
  desc : String := ""
  status : String := "idea"
  body : String := ""
  notes : List Note := []
  todos : List Todo := []
  log : Log := []
deriving DecidableEq, Repr

/-- models.ACTIVE_STATUSES. -/
def ACTIVE_STATUSES : List String := ["idea", "planning", "active", "blocked", "paused"]

/-- models.TERMINAL_STATUSES. -/
def TERMINAL_STATUSES : List String := ["resolved", "superseded", "deferred"]

/-- models.ALL_STATUSES. -/
def ALL_STATUSES : List String := ACTIVE_STATUSES ++ TERMINAL_STATUSES

/-- Character sweep for base_status: everything before the first
occurrence of space-open-paren. -/
def baseStatusList : List Char → List Char
  | [] => []
  | ' ' :: '(' :: _ => []
  | c :: rest => c :: baseStatusList rest

/-- models.base_status: the status up to a parenthetical reason suffix,
the first piece of the Python split on space-open-paren. -/
def base_status (status : String) : String := ⟨baseStatusList status.toList⟩

/-- Structured metadata header: string-valued key/value pairs as parsed by
the external frontmatter library. -/
abbrev Metadata := List (String × String)

/-- frontmatter post.get with a default. -/
def metaGet (m : Metadata) (k d : String) : String :=
  match m.find? (fun kv => kv.1 == k) with
  | some kv => kv.2
  | none => d

/-- A thread document at the level the frontmatter library hands it to the
repository code: either the parsed header (key/value metadata) or the mark
that the header could not be parsed, plus the content string after the
header. -/
structure RawDoc where
  header : Option Metadata
  content : String
deriving DecidableEq, Repr

/-- storage.load_thread: build a Thread from a document.  A document whose
header cannot be parsed raises; every key is read with a default. -/
def load_thread (doc : RawDoc) : Except String Thread :=
  match doc.header with
  | none => .error "DecodeError: malformed metadata header"
  | some m =>
    let sections := parse_sections doc.content
    .ok {
      id := metaGet m "id" ""
      name := metaGet m "name" (metaGet m "title" "")
      desc := metaGet m "desc" ""
      status := metaGet m "status" "idea"
      body := sectGet sections "Body" ""
      notes := parse_notes (sectGet sections "Notes" "")
      todos := parse_todos (sectGet sections "Todo" "")
      log := parse_log (sectGet sections "Log" "") }

/-- Rendered bullet line of one note. -/
def noteStr (n : Note) : String := "- " ++ n.text ++ "  <!-- " ++ n.hash ++ " -->"

/-- storage.serialize_notes. -/
def serialize_notes (notes : List Note) : String :=
  if notes.isEmpty then "" else joinLines (notes.map noteStr)

/-- Rendered bullet line of one todo. -/
def todoStr (t : Todo) : String :=
  "- [" ++ (if t.checked then "x" else " ") ++ "] " ++ t.text ++ "  <!-- " ++ t.hash ++ " -->"

/-- storage.serialize_todos. -/
def serialize_todos (todos : List Todo) : String :=
  if todos.isEmpty then "" else joinLines (todos.map todoStr)

/-- Entry list stored under a date key (Python log[date]). -/
def logEntriesFor (log : Log) (d : String) : List LogEntry :=
  match log.find? (fun kv => kv.1 == d) with
  | some kv => kv.2
  | none => []

/-- Rendered bullet line of one log entry. -/
def entryStr (e : LogEntry) : String := "- **" ++ e.time ++ "** " ++ e.text

/-- Date keys of the log in Python sorted reverse order (descending). -/
def logDatesDesc (log : Log) : List String :=
  sortBy (fun a b => charListLe b.toList a.toList) (log.map (fun kv => kv.1))

/-- storage.serialize_log: dates descending, each as a level-3 heading, a
blank line, then the entry bullets in stored order. -/
def serialize_log (log : Log) : String :=
  if log.isEmpty then ""
  else joinLines ((logDatesDesc log).flatMap (fun d =>
    ["### " ++ d, ""] ++ (logEntriesFor log d).map entryStr))

/-- storage.serialize_thread: the metadata header plus the fixed section
order Body, Notes (only when non-empty), Todo, Log. -/
def serialize_thread (t : Thread) : RawDoc :=
  let meta : Metadata := [("id", t.id), ("name", t.name), ("desc", t.desc), ("status", t.status)]
  let sections : List String :=
    ["## Body", ""]
    ++ (if t.body == "" then [] else [t.body, ""])
    ++ (if t.notes.isEmpty then [] else ["## Notes", "", serialize_notes t.notes, ""])
    ++ ["## Todo", ""]
    ++ (if t.todos.isEmpty then [] else [serialize_todos t.todos, ""])
    ++ ["## Log", ""]
    ++ (if t.log.isEmpty then [] else [serialize_log t.log])
  ⟨some meta, joinLines sections⟩

/-! ## Filesystem model and search engine (storage.py) -/

/-- An absolute filesystem path: its components from the filesystem root.
The filesystem root itself is `[]`.  Components are assumed non-empty and
free of the path separator. -/
abbrev Path := List String

/-- A filesystem: the set of existing directories and existing files,
each as an absolute path.  List order fixes the (arbitrary) on-disk
iteration order of Python iterdir. -/
structure FS where
  dirs : List Path
  files : List Path
deriving DecidableEq, Repr

/-- Path.is_dir. -/
def FS.isDir (fs : FS) (p : Path) : Bool := fs.dirs.contains p

/-- Path.is_file. -/
def FS.isFile (fs : FS) (p : Path) : Bool := fs.files.contains p

/-- Path.iterdir: the entries (directories and files) directly inside a
directory, in the filesystem's stored order. -/
def FS.children (fs : FS) (d : Path) : List Path :=
  (fs.dirs ++ fs.files).filter (fun e => !e.isEmpty && e.dropLast == d)

/-- Path.name: the last component. -/
def entryName (p : Path) : String := p.getLastD ""

/-- storage._is_git_root and workspace.is_git_root: the directory holds a
.git subdirectory. -/
def isGitRoot (fs : FS) (p : Path) : Bool := fs.isDir (p ++ [".git"])

/-- Python pathlib suffix: the part of the name from its last dot, when
that dot is neither the first nor the last character, else empty. -/
def pySuffix (name : String) : String :=
  let cs := name.toList
  let tail := (cs.reverse.takeWhile (fun c => c ≠ '.')).reverse
  if tail.length = cs.length then ""
  else if 0 < cs.length - tail.length - 1 ∧ 0 < tail.length then ⟨'.' :: tail⟩
  else ""

/-- Python pathlib stem: the name with its suffix removed. -/
def pyStem (name : String) : String :=
  let cs := name.toList
  let tail := (cs.reverse.takeWhile (fun c => c ≠ '.')).reverse
  if tail.length = cs.length then name
  else if 0 < cs.length - tail.length - 1 ∧ 0 < tail.length then
    ⟨cs.take (cs.length - tail.length - 1)⟩
  else name

/-- Test embedding the Python substring test for "/archive/" on the str of
an absolute path: some non-final component is exactly "archive" (components
are non-empty and separator-free, so the substring occurs exactly then). -/
def hasArchiveSeg (p : Path) : Bool := p.dropLast.contains "archive"

/-- storage._collect_threads_at_path: the .md files directly inside the
.threads subdirectory of the given directory, skipping paths with an
archive segment. -/
def collectThreadsAtPath (fs : FS) (dirPath : Path) : List Path :=
  let threadsDir := dirPath ++ [".threads"]
  if fs.isDir threadsDir then
    (fs.children threadsDir).filter (fun e =>
      fs.isFile e && pySuffix (entryName e) == ".md" && !hasArchiveSeg e)
  else []

/-- Longest directory path length in the filesystem; recursion measure for
the downward walks. -/
def FS.maxLen (fs : FS) : Nat := (fs.dirs.map List.length).foldr max 0

/-- Subdirectories eligible for the downward walks: directory entries that
are not hidden and do not cross a forbidden git boundary. -/
def eligibleSubdirs (fs : FS) (dirPath gitRoot : Path) (crossGit : Bool) : List Path :=
  (fs.children dirPath).filter (fun e =>
    fs.isDir e && !(strStartsWith (entryName e) ".") &&
    (crossGit || e == gitRoot || !isGitRoot fs e))

/-- storage._find_threads_down: recursive downward walk under a depth
limit (negative limit = unlimited), skipping hidden directories and,
unless crossing is allowed, nested git roots.  The fuel argument only
bounds the recursion for Lean; the wrapper passes enough fuel that it is
never exhausted, because each level of the walk moves to strictly longer
directory paths and the filesystem has finitely many directories. -/
def findThreadsDownF (fs : FS) : Nat → Path → Path → Int → Int → Bool → List Path
  | 0, _, _, _, _, _ => []
  | fuel + 1, dirPath, gitRoot, currentDepth, maxDepth, crossGit =>
    if maxDepth ≥ 0 ∧ currentDepth ≥ maxDepth then []
    else
      (eligibleSubdirs fs dirPath gitRoot crossGit).flatMap
        (fun e =>
          collectThreadsAtPath fs e ++
          findThreadsDownF fs fuel e gitRoot (currentDepth + 1) maxDepth crossGit)

/-- storage._find_threads_down at full fuel. -/
def findThreadsDown (fs : FS) (dirPath gitRoot : Path)
    (currentDepth maxDepth : Int) (crossGit : Bool) : List Path :=
  findThreadsDownF fs (fs.maxLen + 1) dirPath gitRoot currentDepth maxDepth crossGit

/-- storage._find_threads_up: walk parent directories one level at a time
under a depth limit (negative limit = unlimited), stopping at the
filesystem root and, unless crossing is allowed, when the parent leaves
the git root subtree.  Paths in the model are canonical, so the resolve
calls of the source are the identity.  The fuel argument only bounds the
recursion for Lean; the wrapper passes enough fuel that it is never
exhausted, because every step shortens the path and the walk stops at the
filesystem root. -/
def findThreadsUpF (fs : FS) : Nat → Path → Path → Int → Int → Bool → List Path
  | 0, _, _, _, _, _ => []
  | fuel + 1, dirPath, gitRoot, currentDepth, maxDepth, crossGit =>
    if maxDepth ≥ 0 ∧ currentDepth ≥ maxDepth then []
    else
      let parent := dirPath.dropLast
      if parent = dirPath then []
      else if ¬crossGit ∧ ¬(gitRoot.isPrefixOf parent = true) then []
      else
        collectThreadsAtPath fs parent ++
          findThreadsUpF fs fuel parent gitRoot (currentDepth + 1) maxDepth crossGit

/-- storage._find_threads_up at full fuel. -/
def findThreadsUp (fs : FS) (dirPath gitRoot : Path)
    (currentDepth maxDepth : Int) (crossGit : Bool) : List Path :=
  findThreadsUpF fs (dirPath.length + 1) dirPath gitRoot currentDepth maxDepth crossGit

/-- storage.FindOptions. -/
structure FindOptions where
  down : Option Int := none
  up : Option Int := none
  noGitBoundDown : Bool := false
  noGitBoundUp : Bool := false
deriving DecidableEq, Repr

/-- Deduplication keeping first occurrences, with a seen accumulator.
Models the Python set conversion, whose iteration order is arbitrary; the
model fixes it as first-occurrence order. -/
def dedupFirst [BEq α] : List α → List α → List α
  | [], _ => []
  | x :: xs, seen =>
    if seen.contains x then dedupFirst xs seen else x :: dedupFirst xs (x :: seen)

/-- Python sorted(set(threads), key=mtime, reverse=True): deduplicate,
then order by modification time, most recent first.  The model fixes the
arbitrary tie order as the stable order of the deduplicated list. -/
def sortByMtimeDesc (mtime : Path → Int) (threads : List Path) : List Path :=
  sortBy (fun a b => decide (mtime b ≤ mtime a)) (dedupFirst threads [])

/-- storage.find_threads_with_options: collect at the start directory
always, then optionally walk down and up, then deduplicate and sort. -/
def find_threads_with_options (fs : FS) (mtime : Path → Int)
    (startPath gitRoot : Path) (options : FindOptions) : List Path :=
  let t0 := collectThreadsAtPath fs startPath
  let t1 := t0 ++ (match options.down with
    | some d => findThreadsDown fs startPath gitRoot 0 d options.noGitBoundDown
    | none => [])
  let t2 := t1 ++ (match options.up with
    | some u => findThreadsUp fs startPath gitRoot 0 u options.noGitBoundUp
    | none => [])
  sortByMtimeDesc mtime t2

/-- storage._find_threads_recursive: collect at the directory itself, then
recurse into non-hidden subdirectories that are not nested git roots.
Fuel as for the downward walk. -/
def findThreadsRecursiveF (fs : FS) : Nat → Path → Path → List Path
  | 0, _, _ => []
  | fuel + 1, dirPath, gitRoot =>
    collectThreadsAtPath fs dirPath ++
      (eligibleSubdirs fs dirPath gitRoot false).flatMap
        (fun e => findThreadsRecursiveF fs fuel e gitRoot)

/-- storage._find_threads_recursive at full fuel. -/
def findThreadsRecursive (fs : FS) (dirPath gitRoot : Path) : List Path :=
  findThreadsRecursiveF fs (fs.maxLen + 1) dirPath gitRoot

/-- storage.find_threads: full recursive scan from the git root, sorted by
modification time descending (no deduplication in the source). -/
def find_threads (fs : FS) (mtime : Path → Int) (gitRoot : Path) : List Path :=
  sortBy (fun a b => decide (mtime b ≤ mtime a)) (findThreadsRecursive fs gitRoot gitRoot)

/-! ## Scope resolver and reference resolver (workspace.py) -/

/-- workspace.Scope. -/
structure Scope where
  threadsDir : Path
  path : String
  levelDesc : String
deriving DecidableEq, Repr

/-- Split a path expression into components (Python Path construction
drops empty components produced by repeated separators). -/
def splitPathArg (s : String) : List String :=
  (splitStr '/' s).filter (fun c => !(c == ""))

/-- Lexical normalization of an absolute path: resolve single-dot and
dot-dot components.  Embeds Path.resolve for a symlink-free filesystem. -/
def normalizePath (p : Path) : Path :=
  p.foldl (fun acc c =>
    if c = "." then acc
    else if c = ".." then acc.dropLast
    else acc ++ [c]) []

/-- Target computation of workspace.infer_scope: the five resolution rules
(null/empty, single dot, dot-slash relative, absolute, git-root relative)
followed by resolve. -/
def resolveTargetPath (pwd : Path) (pathArg : Option String) (gitRoot : Path) : Path :=
  let raw : Path :=
    match pathArg with
    | none => pwd
    | some a =>
      if a = "" then pwd
      else if a = "." then pwd
      else if strStartsWith a "./" then pwd ++ splitPathArg (a.drop 2)
      else if strStartsWith a "/" then splitPathArg a
      else gitRoot ++ splitPathArg a
  normalizePath raw

/-- Nested-git-root scan of workspace.infer_scope: walk from the target up
to (but excluding) the git root and return the first directory that is
itself a git root.  The filesystem-root guard is unreachable when the
git root is a prefix of the target, which the caller has checked. -/
def nestedGitHitF (fs : FS) : Nat → Path → Path → Option Path
  | 0, _, _ => none
  | fuel + 1, target, gitRoot =>
    if target = gitRoot then none
    else if isGitRoot fs target then some target
    else nestedGitHitF fs fuel target.dropLast gitRoot

/-- Nested-git-root scan at full fuel: the walk strips one component per
step, so the length of the target bounds it. -/
def nestedGitHit (fs : FS) (target gitRoot : Path) : Option Path :=
  nestedGitHitF fs (target.length + 1) target gitRoot

/-- Check-and-build phase of workspace.infer_scope, applied to the already
resolved target and root: existence, containment in the root subtree, the
nested-git scan, then the root-relative path and scope construction. -/
def scopeChecks (fs : FS) (target root : Path) : Except String Scope :=
  if ¬(fs.isDir target = true) then .error "Path not found or not a directory"
  else if ¬(root.isPrefixOf target = true) then .error "Path must be within git repository"
  else
    match (if target ≠ root then nestedGitHit fs target root else none) with
    | some _ => .error "Path is inside a nested git repository"
    | none =>
      let relComps := target.drop root.length
      let relPath := if relComps.isEmpty then "." else joinWith "/" relComps
      .ok ⟨target ++ [".threads"], relPath, if relPath = "." then "repo root" else relPath⟩

/-- workspace.infer_scope: determine the threads directory and the
root-relative path for a path specification.  The current working
directory and the git root are explicit parameters of the model. -/
def infer_scope (fs : FS) (pwd : Path) (pathArg : Option String) (gitRoot : Path) :
    Except String Scope :=
  scopeChecks fs (resolveTargetPath pwd pathArg gitRoot) (normalizePath gitRoot)

/-- workspace.extract_name_from_path: the stem with a leading id prefix
stripped when the stem is longer than seven characters and its seventh
character is a dash. -/
def extract_name_from_path (p : Path) : String :=
  let stem := pyStem (entryName p)
  let cs := stem.toList
  if 7 < cs.length ∧ cs.getD 6 ' ' = '-' then ⟨cs.drop 7⟩ else stem

/-- Test for the fast-path identifier grammar: re.match of six lower-case
hex digits anchored at both ends.  A Python dollar anchor also accepts a
single trailing newline. -/
def isRefHex6 (ref : String) : Bool :=
  let cs := ref.toList
  (cs.length == 6 && cs.all isHexLower) ||
  (cs.length == 7 && (cs.take 6).all isHexLower && cs.getLastD ' ' == '\n')

/-- Post-loop disposition of the slow path of workspace.find_thread_by_ref:
one substring candidate is returned, several are an ambiguity error, none
is a not-found error.  Error messages are abbreviated. -/
def slowFinish (ref : String) (subs : List Path) : Except String Path :=
  match subs with
  | [p] => .ok p
  | [] => .error ("Thread not found: " ++ ref)
  | _ => .error ("Ambiguous reference: " ++ ref)

/-- Slow-path loop of workspace.find_thread_by_ref: an exact match of the
filename-derived name returns immediately; case-insensitive substring
matches accumulate in scan order. -/
def slowLoop (ref : String) : List Path → List Path → Except String Path
  | [], subs => slowFinish ref subs
  | p :: rest, subs =>
    let name := extract_name_from_path p
    if name = ref then .ok p
    else if listInfix (strLower ref).toList (strLower name).toList then
      slowLoop ref rest (subs ++ [p])
    else slowLoop ref rest subs

/-- workspace.find_thread_by_ref: fast path by id prefix on the filename,
falling through to the slow path over the same scan list. -/
def find_thread_by_ref (fs : FS) (mtime : Path → Int) (ref : String) (gitRoot : Path) :
    Except String Path :=
  let threads := find_threads fs mtime gitRoot
  match (if isRefHex6 ref then
      threads.find? (fun p => strStartsWith (pyStem (entryName p)) (ref ++ "-"))
    else none) with
  | some p => .ok p
  | none => slowLoop ref threads []

/-! ## Concrete workspaces and search-spec helpers used by the theorems -/

/-- Workspace with a repository root holding one ordinary subdirectory. -/
def fsRepoSub : FS := ⟨[["repo"], ["repo", "sub"]], []⟩

/-- Workspace with two threads whose record names are the titles
Fix login and Fix login bug; on disk the filenames carry the slugs, as
the data-model invariant prescribes. -/
def fsFixLogin : FS :=
  ⟨[["repo"], ["repo", ".threads"]],
    [["repo", ".threads", "aaaaaa-fix-login.md"],
      ["repo", ".threads", "bbbbbb-fix-login-bug.md"]]⟩

/-- Workspace with two thread files sharing the identifier prefix. -/
def fsDupId : FS :=
  ⟨[["repo"], ["repo", ".threads"]],
    [["repo", ".threads", "aaaaaa-x.md"], ["repo", ".threads", "aaaaaa-y.md"]]⟩

/-- Workspace with records at downward depths zero, one and two below the
root. -/
def fsDepth : FS :=
  ⟨[["r"], ["r", ".threads"], ["r", "a"], ["r", "a", ".threads"],
      ["r", "a", "b"], ["r", "a", "b", ".threads"]],
    [["r", ".threads", "t0.md"], ["r", "a", ".threads", "t1.md"],
      ["r", "a", "b", ".threads", "t2.md"]]⟩

/-- Workspace for the upward search: a directory above the git root also
holds records, which an upward search bounded by the root must not see. -/
def fsUp : FS :=
  ⟨[["top"], ["top", ".threads"], ["top", "r"], ["top", "r", ".threads"],
      ["top", "r", "m"], ["top", "r", "m", ".threads"],
      ["top", "r", "m", "s"], ["top", "r", "m", "s", ".threads"]],
    [["top", ".threads", "x.md"], ["top", "r", ".threads", "y.md"],
      ["top", "r", "m", ".threads", "z.md"], ["top", "r", "m", "s", ".threads", "w.md"]]⟩

/-- First proper ancestors of a directory: the i-th entry is the directory
with the last i+1 components removed. -/
def expectedUpFrom (start : Path) (k : Nat) : List Path :=
  (List.range k).map (fun i => start.take (start.length - 1 - i))

/-- Directories the upward search is specified to visit when it may not
cross the git boundary: the proper ancestors of the start, truncated at
the git root (inclusive) and at the configured depth (negative depth =
unlimited). -/
def expectedUpDirs (start root : Path) (maxd : Int) : List Path :=
  expectedUpFrom start
    (if maxd < 0 then start.length - root.length
      else min (start.length - root.length) maxd.toNat)

/-- Number of directories the upward walk visits when started at depth cd
with limit maxd (negative = unlimited), bounded by the distance from the
start to the git root. -/
def upCount (start root : Path) (maxd cd : Int) : Nat :=
  if maxd < 0 then start.length - root.length
  else min (start.length - root.length) (maxd - cd).toNat

/-! ## Well-formedness for the round-trip contract -/

/-- Free text stored in a note or todo bullet: non-empty, single-line,
with no leading or trailing whitespace. -/
def TextOK (s : String) : Prop :=
  s ≠ "" ∧ ¬ '\n' ∈ s.toList ∧ pyStrip s = s

/-- Free text stored in a log entry: non-empty, single-line, with no
trailing whitespace. -/
def RTextOK (s : String) : Prop :=
  s ≠ "" ∧ ¬ '\n' ∈ s.toList ∧ pyRstrip s = s

/-- A short hash: exactly four lower-case hex digits. -/
def HashOK (h : String) : Prop :=
  h.toList.length = 4 ∧ h.toList.all isHexLower = true

/-- A log time: two digits, colon, two digits. -/
def TimeOK (t : String) : Prop := isTimeShape t.toList = true

/-- A log date key: four digits, dash, two digits, dash, two digits. -/
def DateOK (d : String) : Prop := isDateShape d.toList = true

/-- A record body fit for the section grammar: no leading or trailing
whitespace and no line opening like a level-2 heading. -/
def BodyOK (b : String) : Prop :=
  pyStrip b = b ∧ ∀ l ∈ splitLines b, strStartsWith l "## " = false

/-- The data-model invariants of the claim together with the text
well-formedness the codec needs for a lossless round trip. -/
def WellFormed (t : Thread) : Prop :=
  (t.id.toList.length = 6 ∧ t.id.toList.all isHexLower = true) ∧
  base_status t.status ∈ ALL_STATUSES ∧
  BodyOK t.body ∧
  (∀ n ∈ t.notes, TextOK n.text ∧ HashOK n.hash) ∧
  (∀ td ∈ t.todos, TextOK td.text ∧ HashOK td.hash) ∧
  (t.log.map Prod.fst).Nodup ∧
  (∀ kv ∈ t.log, DateOK kv.1 ∧ kv.2 ≠ [] ∧
    ∀ e ∈ kv.2, TimeOK e.time ∧ RTextOK e.text)

instance wellFormedDecidable (t : Thread) : Decidable (WellFormed t) := by
  unfold WellFormed TextOK RTextOK HashOK TimeOK DateOK BodyOK
  infer_instance

/-- The data-model invariants exactly as the round-trip claim lists them:
id is six lower-case hex digits, the base status lies in the closed status
set, note and todo hashes are four lower-case hex digits, and the log is
keyed by year-month-day dates.  (No constraint on the free-text fields.) -/
def ClaimDataInvariants (t : Thread) : Prop :=
  (t.id.toList.length = 6 ∧ t.id.toList.all isHexLower = true) ∧
  base_status t.status ∈ ALL_STATUSES ∧
  (∀ n ∈ t.notes, HashOK n.hash) ∧
  (∀ td ∈ t.todos, HashOK td.hash) ∧
  (∀ kv ∈ t.log, DateOK kv.1)

instance claimDataInvariantsDecidable (t : Thread) :
    Decidable (ClaimDataInvariants t) := by
  unfold ClaimDataInvariants HashOK DateOK
  infer_instance

/-- A concrete record exercising every serialized feature: multi-line body,
notes (one ending in a comment opener), checked and unchecked todos, and a
multi-date log. -/
def tBig : Thread :=
  { id := "abcdef"
    name := "Fix login"
    desc := "d"
    status := "active (stuck)"
    body := "line one\nline two"
    notes := [⟨"note one", "ab12"⟩, ⟨"x <!--", "ffff"⟩]
    todos := [⟨"todo one", "0a0b", true⟩, ⟨"todo two", "cdef", false⟩]
    log := [("2024-01-02", [⟨"09:15", "start"⟩, ⟨"10:00", "more"⟩]),
            ("2024-01-03", [⟨"11:30", "done"⟩])] }

/-! ## Shared lemmas -/

theorem le_foldr_max (l : List Nat) (a : Nat) (h : a ∈ l) : a ≤ l.foldr max 0 := by
  induction l with
  | nil => cases h
  | cons x xs ih =>
    rcases List.mem_cons.mp h with h | h
    · subst h
      exact Nat.le_max_left _ _
    · exact le_trans (ih h) (Nat.le_max_right _ _)

theorem length_le_maxLen (fs : FS) (p : Path) (h : fs.isDir p = true) :
    p.length ≤ fs.maxLen := by
  refine le_foldr_max _ _ ?_
  rw [FS.isDir] at h
  exact List.mem_map_of_mem _ (List.mem_of_elem_eq_true h)

theorem children_length {fs : FS} {d e : Path} (h : e ∈ fs.children d) :
    e.length = d.length + 1 := by
  obtain ⟨-, h2⟩ := List.mem_filter.mp h
  rw [Bool.and_eq_true, Bool.not_eq_true', List.isEmpty_eq_false_iff_exists_mem] at h2
  obtain ⟨⟨a, ha⟩, h4⟩ := h2
  have hd : e.dropLast = d := by simpa using h4
  have hne : e ≠ [] := fun hnil => by simp [hnil] at ha
  have := List.length_dropLast e
  rw [hd] at this
  have hpos : 0 < e.length := List.length_pos.mpr hne
  omega

theorem eligible_dir_length {fs : FS} {d g e : Path} {c : Bool}
    (h : e ∈ eligibleSubdirs fs d g c) :
    fs.isDir e = true ∧ e.length = d.length + 1 := by
  obtain ⟨h1, h2⟩ := List.mem_filter.mp h
  rw [Bool.and_eq_true, Bool.and_eq_true] at h2
  exact ⟨h2.1.1, children_length h1⟩


theorem prefix_length_lt_of_ne {α : Type _} {r t : List α} (h : r <+: t) (hne : r ≠ t) :
    r.length < t.length := by
  rcases lt_or_eq_of_le h.length_le with hlt | heq
  · exact hlt
  · exact absurd (h.eq_of_length heq) hne

theorem prefix_dropLast_of_ne {α : Type _} {r t : List α} (h : r <+: t) (hne : r ≠ t) :
    r <+: t.dropLast := by
  have hlt := prefix_length_lt_of_ne h hne
  rw [List.prefix_iff_eq_take] at h ⊢
  rw [List.dropLast_eq_take, List.take_take, min_eq_left (by omega)]
  exact h

theorem prefix_cases_dropLast {α : Type _} {d t : List α} (h : d <+: t) :
    d = t ∨ d <+: t.dropLast := by
  by_cases hd : d = t
  · exact Or.inl hd
  · exact Or.inr (prefix_dropLast_of_ne h hd)

theorem prefix_antisymm {α : Type _} {d r : List α} (h1 : r <+: d) (h2 : d <+: r) : d = r :=
  h2.eq_of_length (le_antisymm h2.length_le h1.length_le)

/-! ## Scope resolver: nested-git scan characterization -/

/-- The nested-git walk finds nothing exactly when no directory from the
target up to (and excluding) the root is itself a git root, provided the
fuel covers the walk. -/
theorem nestedGitHitF_none_iff (fs : FS) :
    ∀ (fuel : Nat) (t r : Path), r <+: t → t.length < fuel + r.length →
      (nestedGitHitF fs fuel t r = none ↔
        ∀ d, r <+: d → d <+: t → d ≠ r → isGitRoot fs d = false) := by
  intro fuel
  induction fuel with
  | zero =>
    intro t r hpre hlen
    exact absurd hpre.length_le (by omega)
  | succ fuel ih =>
    intro t r hpre hlen
    rw [nestedGitHitF]
    by_cases heq : t = r
    · subst heq
      rw [if_pos rfl]
      exact ⟨fun _ d h1 h2 hne => absurd (prefix_antisymm h1 h2) hne, fun _ => rfl⟩
    · rw [if_neg heq]
      by_cases hg : isGitRoot fs t = true
      · simp only [hg, if_pos rfl]
        constructor
        · intro habs
          exact absurd habs (by simp)
        · intro hall
          have := hall t hpre List.prefix_rfl heq
          rw [hg] at this
          exact absurd this (by simp)
      · rw [if_neg hg]
        have hlt := prefix_length_lt_of_ne hpre (Ne.symm heq)
        have hpre' := prefix_dropLast_of_ne hpre (Ne.symm heq)
        have hlen' : t.dropLast.length < fuel + r.length := by
          rw [List.length_dropLast]
          omega
        rw [ih t.dropLast r hpre' hlen']
        constructor
        · intro hall d h1 h2 hne
          rcases prefix_cases_dropLast h2 with hEq | h2'
          · subst hEq
            exact Bool.eq_false_iff.mpr hg
          · exact hall d h1 h2' hne
        · intro hall d h1 h2 hne
          exact hall d h1 (h2.trans (List.dropLast_prefix t)) hne

/-- The nested-git scan at full fuel. -/
theorem nestedGitHit_none_iff (fs : FS) (t r : Path) (hpre : r <+: t) :
    nestedGitHit fs t r = none ↔
      ∀ d, r <+: d → d <+: t → d ≠ r → isGitRoot fs d = false :=
  nestedGitHitF_none_iff fs (t.length + 1) t r hpre (by omega)

theorem normalizePath_no_dot (p : Path) : ∀ c ∈ normalizePath p, c ≠ "." := by
  suffices h : ∀ (q : List String) (acc : List String), (∀ c ∈ acc, c ≠ ".") →
      ∀ c ∈ q.foldl (fun acc c =>
        if c = "." then acc
        else if c = ".." then acc.dropLast
        else acc ++ [c]) acc, c ≠ "." by
    exact h p [] (by simp)
  intro q
  induction q with
  | nil => intro acc hacc; simpa using hacc
  | cons x xs ih =>
    intro acc hacc
    rw [List.foldl_cons]
    apply ih
    by_cases hx : x = "."
    · rw [if_pos hx]; exact hacc
    · rw [if_neg hx]
      by_cases hx2 : x = ".."
      · rw [if_pos hx2]
        intro c hc
        exact hacc c ((List.dropLast_sublist acc).subset hc)
      · rw [if_neg hx2]
        intro c hc
        rcases List.mem_append.mp hc with hc | hc
        · exact hacc c hc
        · rw [List.mem_singleton.mp hc]; exact hx

theorem joinWith_slash_ne_dot (comps : List String) (hne : comps ≠ [])
    (hdot : ∀ c ∈ comps, c ≠ ".") : joinWith "/" comps ≠ "." := by
  match comps with
  | [] => exact absurd rfl hne
  | [x] =>
    simpa [joinWith] using hdot x (by simp)
  | x :: y :: rest =>
    intro heq
    have hdata := congrArg String.data heq
    rw [show joinWith "/" (x :: y :: rest) = x ++ "/" ++ joinWith "/" (y :: rest) from rfl,
      String.data_append, String.data_append] at hdata
    have hlen := congrArg List.length hdata
    simp only [List.length_append] at hlen
    have h1 : ("/" : String).data.length = 1 := rfl
    have h2 : ("." : String).data.length = 1 := rfl
    rw [h1, h2] at hlen
    have hx0 : x.data.length = 0 := by omega
    have hz0 : (joinWith "/" (y :: rest)).data.length = 0 := by omega
    rw [List.length_eq_zero] at hx0 hz0
    rw [hx0, hz0] at hdata
    simp only [List.nil_append, List.append_nil] at hdata
    exact absurd hdata (by decide)

/-- C6 counterpart in both directions: success of the scope resolver is
exactly the absence of the three failure conditions.  The nested-root
condition follows the spec's reading: a git-marked directory strictly
below the root, on the chain from the root to the target inclusive of the
target. -/
theorem scopeChecks_ok_iff (fs : FS) (t r : Path) :
    (∃ s, scopeChecks fs t r = .ok s) ↔
      (fs.isDir t = true ∧ r <+: t ∧
        ∀ d, r <+: d → d <+: t → d ≠ r → isGitRoot fs d = false) := by
  unfold scopeChecks
  by_cases hd : fs.isDir t = true
  · rw [if_neg (not_not_intro hd)]
    by_cases hp : r.isPrefixOf t = true
    · rw [if_neg (not_not_intro hp)]
      have hpre : r <+: t := List.isPrefixOf_iff_prefix.mp hp
      by_cases he : t = r
      · rw [if_neg (not_not_intro he)]
        constructor
        · intro _
          refine ⟨hd, hpre, fun d h1 h2 hne => ?_⟩
          rw [he] at h2
          exact absurd (prefix_antisymm h1 h2) hne
        · intro _
          exact ⟨_, rfl⟩
      · rw [if_pos he]
        rcases hng : nestedGitHit fs t r with _ | x
        · constructor
          · intro _
            exact ⟨hd, hpre, (nestedGitHit_none_iff fs t r hpre).mp hng⟩
          · intro _
            exact ⟨_, rfl⟩
        · constructor
          · rintro ⟨s, hs⟩
            exact Except.noConfusion hs
          · rintro ⟨-, -, hall⟩
            rw [(nestedGitHit_none_iff fs t r hpre).mpr hall] at hng
            exact Option.noConfusion hng
    · rw [if_pos hp]
      constructor
      · rintro ⟨s, hs⟩
        exact Except.noConfusion hs
      · rintro ⟨-, hpre, -⟩
        exact absurd (List.isPrefixOf_iff_prefix.mpr hpre) hp
  · rw [if_pos hd]
    constructor
    · rintro ⟨s, hs⟩
      exact Except.noConfusion hs
    · rintro ⟨hd2, -, -⟩
      exact absurd hd2 hd

/-- C6: the scope resolver fails with a resolution error exactly when the
target is not an existing directory, or lies outside the root subtree, or
a git-marked directory sits on the chain from the root (exclusive) to the
target (inclusive); on success none of these conditions hold.  This reads
the claim's nested-root condition as the spec defines it: exclusive of the
root, inclusive of the target. -/
theorem infer_scope_ok_iff (fs : FS) (pwd : Path) (pathArg : Option String) (gitRoot : Path) :
    (∃ s, infer_scope fs pwd pathArg gitRoot = .ok s) ↔
      (fs.isDir (resolveTargetPath pwd pathArg gitRoot) = true ∧
        normalizePath gitRoot <+: resolveTargetPath pwd pathArg gitRoot ∧
        ∀ d, normalizePath gitRoot <+: d →
          d <+: resolveTargetPath pwd pathArg gitRoot →
          d ≠ normalizePath gitRoot → isGitRoot fs d = false) := by
  unfold infer_scope
  exact scopeChecks_ok_iff fs (resolveTargetPath pwd pathArg gitRoot) (normalizePath gitRoot)

/-- Root-relative path of a successful scope check: it is dot exactly when
the target coincides with the root, provided no target component is the
literal dot. -/
theorem scopeChecks_path_dot_iff (fs : FS) (t r : Path) (s : Scope)
    (hnd : ∀ c ∈ t, c ≠ ".") (h : scopeChecks fs t r = .ok s) :
    s.path = "." ↔ t = r := by
  unfold scopeChecks at h
  by_cases hd : fs.isDir t = true
  · rw [if_neg (not_not_intro hd)] at h
    by_cases hp : r.isPrefixOf t = true
    · rw [if_neg (not_not_intro hp)] at h
      have hpre : r <+: t := List.isPrefixOf_iff_prefix.mp hp
      by_cases he : t = r
      · rw [if_neg (not_not_intro he)] at h
        injection h with h2
        subst h2
        have hdrop : t.drop r.length = [] := by rw [he, List.drop_length]
        show (if (t.drop r.length).isEmpty = true then "."
            else joinWith "/" (t.drop r.length)) = "." ↔ t = r
        rw [hdrop]
        exact ⟨fun _ => he, fun _ => rfl⟩
      · rw [if_pos he] at h
        rcases hng : nestedGitHit fs t r with _ | x
        · rw [hng] at h
          injection h with h2
          subst h2
          have hlt := prefix_length_lt_of_ne hpre (Ne.symm he)
          have hdropne : t.drop r.length ≠ [] := by
            intro hnil
            rw [List.drop_eq_nil_iff] at hnil
            omega
          show (if (t.drop r.length).isEmpty = true then "."
              else joinWith "/" (t.drop r.length)) = "." ↔ t = r
          rw [if_neg (by simpa [List.isEmpty_iff] using hdropne)]
          have hne2 : joinWith "/" (t.drop r.length) ≠ "." := by
            apply joinWith_slash_ne_dot _ hdropne
            intro c hc
            exact hnd c (List.mem_of_mem_drop hc)
          exact ⟨fun habs => absurd habs hne2, fun habs => absurd habs he⟩
        · rw [hng] at h
          exact Except.noConfusion h
    · rw [if_pos hp] at h
      exact Except.noConfusion h
  · rw [if_pos hd] at h
    exact Except.noConfusion h

/-! ## C5: scope expression dot -/

/-- C5 counterexample: resolving the scope expression dot from a working
directory strictly below the root succeeds with the root-relative path of
the working directory, not with the path dot. -/
theorem infer_scope_dot_below_root :
    infer_scope fsRepoSub ["repo", "sub"] (some ".") ["repo"] =
      .ok ⟨["repo", "sub", ".threads"], "sub", "sub"⟩ ∧ ("sub" : String) ≠ "." :=
  ⟨by decide, by decide⟩

/-- C5 amended: resolving the scope expression dot targets the current
working directory, and the resulting canonical path is dot exactly when
the working directory is the git root. -/
theorem resolveTargetPath_no_dot (pwd : Path) (pa : Option String) (gitRoot : Path) :
    ∀ c ∈ resolveTargetPath pwd pa gitRoot, c ≠ "." := by
  unfold resolveTargetPath
  exact normalizePath_no_dot _

/-- C5 amended: resolving the scope expression dot targets the current
working directory, and the resulting canonical path is dot exactly when
the working directory resolves to the git root. -/
theorem infer_scope_dot_char (fs : FS) (pwd gitRoot : Path) (s : Scope)
    (h : infer_scope fs pwd (some ".") gitRoot = .ok s) :
    resolveTargetPath pwd (some ".") gitRoot = normalizePath pwd ∧
    (s.path = "." ↔ normalizePath pwd = normalizePath gitRoot) := by
  refine ⟨rfl, ?_⟩
  have hiff := scopeChecks_path_dot_iff fs (resolveTargetPath pwd (some ".") gitRoot)
    (normalizePath gitRoot) s (resolveTargetPath_no_dot pwd (some ".") gitRoot) h
  rw [show resolveTargetPath pwd (some ".") gitRoot = normalizePath pwd from rfl] at hiff
  exact hiff

/-- C5 amended witness at the root itself. -/
theorem infer_scope_dot_char_witness :
    resolveTargetPath ["repo"] (some ".") ["repo"] = normalizePath ["repo"] ∧
    ((Scope.path ⟨["repo", ".threads"], ".", "repo root"⟩) = "." ↔
      normalizePath ["repo"] = normalizePath ["repo"]) :=
  infer_scope_dot_char fsRepoSub ["repo"] ["repo"]
    ⟨["repo", ".threads"], ".", "repo root"⟩ (by decide)

/-! ## C10: filename-derived name -/

theorem string_toList_ne_nil {s : String} (hs : s ≠ "") : s.toList ≠ [] := by
  rcases s with ⟨l⟩
  intro h
  cases h
  exact hs rfl

/-- Python stem of a markdown filename: appending the .md suffix and
taking the stem gives back the base name. -/
theorem pyStem_append_md (s : String) (hs : s ≠ "") : pyStem (s ++ ".md") = s := by
  have hL : 0 < s.toList.length := List.length_pos.mpr (string_toList_ne_nil hs)
  have hdata : (s ++ ".md").toList = s.toList ++ ['.', 'm', 'd'] := by
    show (s ++ ".md").data = s.data ++ ['.', 'm', 'd']
    rw [String.data_append]
  have hrev : (s.toList ++ ['.', 'm', 'd']).reverse = 'd' :: 'm' :: '.' :: s.toList.reverse := by
    rw [List.reverse_append]
    rfl
  have htw : ('d' :: 'm' :: '.' :: s.toList.reverse).takeWhile (fun c => decide (c ≠ '.')) =
      ['d', 'm'] := rfl
  unfold pyStem
  rw [hdata]
  dsimp only
  rw [hrev, htw]
  have hlen : (s.toList ++ ['.', 'm', 'd']).length = s.toList.length + 3 := by
    simp
  rw [if_neg (by simp only [hlen, List.length_reverse, List.length_cons, List.length_nil]; omega)]
  rw [if_pos (by refine ⟨?_, by simp⟩; simp only [hlen, List.length_reverse, List.length_cons, List.length_nil]; omega)]
  have harith : (s.toList ++ ['.', 'm', 'd']).length - (['d', 'm'].reverse : List Char).length - 1 =
      s.toList.length := by
    simp only [hlen, List.length_reverse, List.length_cons, List.length_nil]
    omega
  rw [harith]
  rw [List.take_left]
  rfl

theorem entryName_concat (d : Path) (x : String) : entryName (d ++ [x]) = x :=
  List.getLastD_concat _ _ _

/-- C10: the name the reference resolver matches is derived purely from
the filename: for a thread file whose stem is longer than seven characters
with a dash as its seventh character, the name is the stem with its first
seven characters stripped; otherwise the entire stem is the name. -/
theorem extract_name_from_filename (d : Path) (s : String) (hs : s ≠ "") :
    extract_name_from_path (d ++ [s ++ ".md"]) =
      (if 7 < s.toList.length ∧ s.toList.getD 6 ' ' = '-'
        then (⟨s.toList.drop 7⟩ : String) else s) := by
  unfold extract_name_from_path
  rw [entryName_concat, pyStem_append_md s hs]

/-- C10 witness: a long stem with the dash in seventh position loses its
id prefix, and a bare stem is kept whole. -/
theorem extract_name_from_filename_witness :
    (extract_name_from_path [".threads", "aaaaaa-fix-login" ++ ".md"] =
      (if 7 < "aaaaaa-fix-login".toList.length ∧ "aaaaaa-fix-login".toList.getD 6 ' ' = '-'
        then (⟨"aaaaaa-fix-login".toList.drop 7⟩ : String) else "aaaaaa-fix-login")) ∧
    extract_name_from_path [".threads", "aaaaaa-fix-login.md"] = "fix-login" ∧
    extract_name_from_path [".threads", "notes.md"] = "notes" :=
  ⟨extract_name_from_filename [".threads"] "aaaaaa-fix-login" (by decide),
    by decide, by decide⟩

/-! ## C2: slow-path matching -/

/-- C2 counterexample: the resolver never reads the record's name field;
it matches only the filename-derived slug.  Resolving the record name
Fix login over the two records of the claim's example is a not-found
failure instead of returning the aaaaaa record. -/
theorem find_ref_name_field_ignored :
    find_thread_by_ref fsFixLogin (fun _ => 0) "Fix login" ["repo"] =
      .error "Thread not found: Fix login" := by decide

/-- C2 amended: in the slow path an exact match of the reference against
the filename-derived name returns that record immediately, taking
precedence over substring matches elsewhere in the scanned set; matching
is against the filename-derived name only, so the slug fix-login resolves
to the aaaaaa record while the record-name spelling Fix login does not
resolve at all. -/
theorem slow_path_exact_match_wins :
    (∀ (ref : String) (pre post : List Path) (p : Path) (subs : List Path),
      extract_name_from_path p = ref →
      (∀ q ∈ pre, extract_name_from_path q ≠ ref) →
      slowLoop ref (pre ++ p :: post) subs = .ok p) ∧
    find_thread_by_ref fsFixLogin (fun _ => 0) "fix-login" ["repo"] =
      .ok ["repo", ".threads", "aaaaaa-fix-login.md"] := by
  constructor
  · intro ref pre
    induction pre with
    | nil =>
      intro post p subs hp _
      rw [List.nil_append, slowLoop, if_pos hp]
    | cons q pre ih =>
      intro post p subs hp hpre
      rw [List.cons_append, slowLoop,
        if_neg (hpre q (List.mem_cons_self q pre))]
      by_cases hsub : listInfix (strLower ref).toList (strLower (extract_name_from_path q)).toList = true
      · rw [if_pos hsub]
        exact ih post p (subs ++ [q]) hp (fun x hx => hpre x (List.mem_cons_of_mem q hx))
      · rw [if_neg hsub]
        exact ih post p subs hp (fun x hx => hpre x (List.mem_cons_of_mem q hx))
  · decide

/-- C2 amended witness: the earlier record matches only as a substring,
the later one exactly; the exact match wins. -/
theorem slow_path_exact_match_wins_witness :
    slowLoop "fix-login"
      ([["repo", ".threads", "bbbbbb-fix-login-bug.md"]] ++
        ["repo", ".threads", "aaaaaa-fix-login.md"] :: []) [] =
      .ok ["repo", ".threads", "aaaaaa-fix-login.md"] :=
  slow_path_exact_match_wins.1 "fix-login"
    [["repo", ".threads", "bbbbbb-fix-login-bug.md"]] []
    ["repo", ".threads", "aaaaaa-fix-login.md"] [] (by decide) (by decide)

/-! ## C4: fast path by identifier -/

/-- C4 counterexample: with two files whose names begin with the
referenced id and a dash, the resolver returns the first match instead of
failing with an ambiguity error. -/
theorem fast_path_no_ambiguity_check :
    find_thread_by_ref fsDupId (fun _ => 0) "aaaaaa" ["repo"] =
      .ok ["repo", ".threads", "aaaaaa-x.md"] := by decide

theorem find?_pre_post {α : Type _} (pred : α → Bool) (pre post : List α) (p : α)
    (hp : pred p = true) (hpre : ∀ q ∈ pre, pred q = false) :
    (pre ++ p :: post).find? pred = some p := by
  induction pre with
  | nil =>
    rw [List.nil_append]
    exact List.find?_cons_of_pos _ hp
  | cons q pre ih =>
    rw [List.cons_append, List.find?_cons_of_neg _ (by simp [hpre q (List.mem_cons_self q pre)])]
    exact ih (fun x hx => hpre x (List.mem_cons_of_mem q hx))

/-- C4 amended: when the reference matches the six-hex identifier grammar,
the resolver returns the first file in the scan order whose stem begins
with the reference and a dash (so a unique such file is returned, but
several such files produce no ambiguity error), and with no such file it
falls through to the slow path over the same scan list. -/
theorem fast_path_first_match (fs : FS) (mt : Path → Int) (ref : String) (root : Path)
    (h6 : isRefHex6 ref = true) :
    (∀ (pre post : List Path) (p : Path),
      find_threads fs mt root = pre ++ p :: post →
      strStartsWith (pyStem (entryName p)) (ref ++ "-") = true →
      (∀ q ∈ pre, strStartsWith (pyStem (entryName q)) (ref ++ "-") = false) →
      find_thread_by_ref fs mt ref root = .ok p) ∧
    ((find_threads fs mt root).find?
        (fun q => strStartsWith (pyStem (entryName q)) (ref ++ "-")) = none →
      find_thread_by_ref fs mt ref root = slowLoop ref (find_threads fs mt root) []) := by
  constructor
  · intro pre post p hsplit hp hpre
    unfold find_thread_by_ref
    dsimp only
    rw [if_pos h6, hsplit, find?_pre_post _ pre post p hp hpre]
  · intro hnone
    unfold find_thread_by_ref
    dsimp only
    rw [if_pos h6, hnone]

/-- C4 amended witness: the duplicate-id workspace returns the first of
the two matching files. -/
theorem fast_path_first_match_witness :
    find_thread_by_ref fsDupId (fun _ => 0) "aaaaaa" ["repo"] =
      .ok ["repo", ".threads", "aaaaaa-x.md"] :=
  (fast_path_first_match fsDupId (fun _ => 0) "aaaaaa" ["repo"] (by decide)).1
    [] [["repo", ".threads", "aaaaaa-y.md"]] ["repo", ".threads", "aaaaaa-x.md"]
    (by decide) (by decide) (by decide)

/-! ## C3: decode failure and defaulting -/

/-- C3 counterexample: a parseable header lacking the id key decodes
successfully with the id silently defaulted to the empty string (and the
status to idea), while unknown sections and malformed lines are dropped;
the claim that required keys are never silently defaulted fails. -/
theorem load_thread_defaults_missing_id :
    load_thread ⟨some [("name", "x")], "## Garbage\nblah\n## Notes\nnot a note"⟩ =
      .ok { id := "", name := "x", desc := "", status := "idea",
            body := "", notes := [], todos := [], log := [] } := by decide

/-- C3 amended: decoding fails exactly when the header cannot be parsed as
structured metadata, and never because of section content; missing header
keys are silently defaulted (id, name, desc to the empty string, with name
falling back to the legacy title key, and status to idea). -/
theorem load_thread_header_total (m : Metadata) (content : String) :
    (∃ t, load_thread ⟨some m, content⟩ = .ok t ∧
      t.id = metaGet m "id" "" ∧
      t.name = metaGet m "name" (metaGet m "title" "") ∧
      t.desc = metaGet m "desc" "" ∧
      t.status = metaGet m "status" "idea") ∧
    load_thread ⟨none, content⟩ = .error "DecodeError: malformed metadata header" :=
  ⟨⟨_, rfl, rfl, rfl, rfl, rfl⟩, rfl⟩

/-! ## C7 and C9: search-engine membership -/

theorem mem_insertBy {α : Type _} (le : α → α → Bool) (x a : α) (l : List α) :
    a ∈ insertBy le x l ↔ a = x ∨ a ∈ l := by
  induction l with
  | nil => simp [insertBy]
  | cons y ys ih =>
    rw [insertBy]
    by_cases h : le x y = true
    · simp [h]
    · simp only [if_neg h, List.mem_cons, ih]
      tauto

theorem mem_sortBy {α : Type _} (le : α → α → Bool) (a : α) (l : List α) :
    a ∈ sortBy le l ↔ a ∈ l := by
  induction l with
  | nil => simp [sortBy]
  | cons x xs ih =>
    rw [sortBy, mem_insertBy]
    simp [ih]

theorem mem_dedupFirst {α : Type _} [BEq α] [LawfulBEq α] (a : α) (l seen : List α) :
    a ∈ dedupFirst l seen ↔ a ∈ l ∧ ¬a ∈ seen := by
  induction l generalizing seen with
  | nil => simp [dedupFirst]
  | cons x xs ih =>
    rw [dedupFirst]
    by_cases h : seen.contains x = true
    · rw [if_pos h, ih]
      have hx : x ∈ seen := List.mem_of_elem_eq_true h
      simp only [List.mem_cons]
      constructor
      · rintro ⟨ha, hs⟩
        exact ⟨Or.inr ha, hs⟩
      · rintro ⟨ha | ha, hs⟩
        · exact absurd (ha ▸ hx) hs
        · exact ⟨ha, hs⟩
    · rw [if_neg h]
      have hx : ¬x ∈ seen := fun hm => h (List.elem_eq_true_of_mem hm)
      simp only [List.mem_cons, ih, List.mem_cons]
      constructor
      · rintro (rfl | ⟨ha, hs⟩)
        · exact ⟨Or.inl rfl, hx⟩
        · exact ⟨Or.inr ha, fun hm => hs (Or.inr hm)⟩
      · rintro ⟨rfl | ha, hs⟩
        · exact Or.inl rfl
        · by_cases hax : a = x
          · exact Or.inl hax
          · exact Or.inr ⟨ha, fun hm => (by rcases hm with h1 | h1; exact hax h1; exact hs h1)⟩

theorem mem_sortByMtimeDesc (mt : Path → Int) (p : Path) (l : List Path) :
    p ∈ sortByMtimeDesc mt l ↔ p ∈ l := by
  unfold sortByMtimeDesc
  rw [mem_sortBy, mem_dedupFirst]
  simp

/-- C7: the search always collects the records directly held in the
reserved subdirectory of the start directory, whatever the options; and
from a start with records at downward depths zero, one and two, a search
of downward depth one returns exactly the depth-zero and depth-one
records. -/
theorem find_with_options_depth :
    (∀ (fs : FS) (mt : Path → Int) (start root : Path) (opts : FindOptions),
      ∀ p ∈ collectThreadsAtPath fs start,
        p ∈ find_threads_with_options fs mt start root opts) ∧
    find_threads_with_options fsDepth (fun _ => 0) ["r"] ["r"] { down := some 1 } =
      [["r", ".threads", "t0.md"], ["r", "a", ".threads", "t1.md"]] := by
  constructor
  · intro fs mt start root opts p hp
    unfold find_threads_with_options
    rw [mem_sortByMtimeDesc]
    exact List.mem_append_left _ (List.mem_append_left _ hp)
  · decide

/-- C7 witness: the depth-zero record of the concrete workspace is in the
result set under other options as well. -/
theorem find_with_options_depth_witness :
    ["r", ".threads", "t0.md"] ∈
      find_threads_with_options fsDepth (fun _ => 0) ["r"] ["r"] { down := some 2, up := some 1 } :=
  find_with_options_depth.1 fsDepth (fun _ => 0) ["r"] ["r"]
    { down := some 2, up := some 1 } ["r", ".threads", "t0.md"] (by decide)

theorem mem_children_iff (fs : FS) (d e : Path) :
    e ∈ fs.children d ↔ (e ∈ fs.dirs ∨ e ∈ fs.files) ∧ ∃ n, e = d ++ [n] := by
  unfold FS.children
  rw [List.mem_filter, List.mem_append]
  constructor
  · rintro ⟨hm, hcond⟩
    rw [Bool.and_eq_true, Bool.not_eq_true', List.isEmpty_eq_false_iff_exists_mem] at hcond
    obtain ⟨⟨a, ha⟩, h4⟩ := hcond
    have hd : e.dropLast = d := by simpa using h4
    have hne : e ≠ [] := fun hnil => by simp [hnil] at ha
    refine ⟨hm, e.getLast hne, ?_⟩
    rw [← hd, List.dropLast_append_getLast hne]
  · rintro ⟨hm, n, rfl⟩
    refine ⟨hm, ?_⟩
    rw [Bool.and_eq_true]
    constructor
    · simp
    · simp [List.dropLast_concat]

/-- C9 membership characterization of the collector: a path qualifies
exactly when the reserved subdirectory exists, the path is a file directly
inside it with the markdown suffix, and no non-final component is the
archive segment. -/
theorem mem_collect_iff (fs : FS) (d p : Path) :
    p ∈ collectThreadsAtPath fs d ↔
      fs.isDir (d ++ [".threads"]) = true ∧ fs.isFile p = true ∧
        hasArchiveSeg p = false ∧
        ∃ name, p = d ++ [".threads", name] ∧ pySuffix name = ".md" := by
  unfold collectThreadsAtPath
  by_cases hd : fs.isDir (d ++ [".threads"]) = true
  · rw [if_pos hd, List.mem_filter, mem_children_iff]
    constructor
    · rintro ⟨⟨-, n, rfl⟩, hcond⟩
      rw [Bool.and_eq_true, Bool.and_eq_true] at hcond
      obtain ⟨⟨hfile, hsuf⟩, harch⟩ := hcond
      refine ⟨hd, hfile, by simpa using harch, n, by rw [List.append_assoc]; rfl, ?_⟩
      have : entryName (d ++ [".threads"] ++ [n]) = n := entryName_concat _ _
      rw [this] at hsuf
      simpa using hsuf
    · rintro ⟨-, hfile, harch, name, rfl, hsuf⟩
      have heq : d ++ [".threads", name] = (d ++ [".threads"]) ++ [name] :=
        (List.append_assoc d [".threads"] [name]).symm
      refine ⟨⟨Or.inr (List.mem_of_elem_eq_true hfile), name, heq⟩, ?_⟩
      rw [Bool.and_eq_true, Bool.and_eq_true]
      refine ⟨⟨hfile, ?_⟩, by simpa using harch⟩
      rw [heq, entryName_concat]
      simpa using hsuf
  · rw [if_neg hd]
    simp only [List.not_mem_nil, false_iff]
    rintro ⟨hd2, -⟩
    exact hd hd2

theorem mem_downF_collect {fs : FS} {fuel : Nat} {d g p : Path} {cd md : Int} {c : Bool}
    (h : p ∈ findThreadsDownF fs fuel d g cd md c) :
    ∃ e, p ∈ collectThreadsAtPath fs e := by
  induction fuel generalizing d cd with
  | zero => exact absurd h (by simp [findThreadsDownF])
  | succ fuel ih =>
    rw [findThreadsDownF] at h
    by_cases hstop : md ≥ 0 ∧ cd ≥ md
    · rw [if_pos hstop] at h
      exact absurd h (by simp)
    · rw [if_neg hstop] at h
      rw [List.mem_flatMap] at h
      obtain ⟨e, -, hmem⟩ := h
      rcases List.mem_append.mp hmem with hc | hrec
      · exact ⟨e, hc⟩
      · exact ih hrec

theorem mem_upF_collect {fs : FS} {fuel : Nat} {d g p : Path} {cd md : Int} {c : Bool}
    (h : p ∈ findThreadsUpF fs fuel d g cd md c) :
    ∃ e, p ∈ collectThreadsAtPath fs e := by
  induction fuel generalizing d cd with
  | zero => exact absurd h (by simp [findThreadsUpF])
  | succ fuel ih =>
    rw [findThreadsUpF] at h
    by_cases hstop : md ≥ 0 ∧ cd ≥ md
    · rw [if_pos hstop] at h
      exact absurd h (by simp)
    · rw [if_neg hstop] at h
      dsimp only at h
      by_cases hpar : d.dropLast = d
      · rw [if_pos hpar] at h
        exact absurd h (by simp)
      · rw [if_neg hpar] at h
        by_cases hbound : ¬c = true ∧ ¬(g.isPrefixOf d.dropLast = true)
        · rw [if_pos hbound] at h
          exact absurd h (by simp)
        · rw [if_neg hbound] at h
          rcases List.mem_append.mp h with hc | hrec
          · exact ⟨d.dropLast, hc⟩
          · exact ih hrec

/-- C9: every path the search engine returns is a markdown file lying
directly inside a reserved .threads subdirectory, with no archive segment
anywhere among its directory components; in particular files below an
archive subdirectory of a reserved subdirectory never appear. -/
theorem search_results_qualify :
    (∀ (fs : FS) (d p : Path), p ∈ collectThreadsAtPath fs d ↔
      fs.isDir (d ++ [".threads"]) = true ∧ fs.isFile p = true ∧
        hasArchiveSeg p = false ∧
        ∃ name, p = d ++ [".threads", name] ∧ pySuffix name = ".md") ∧
    (∀ (fs : FS) (mt : Path → Int) (start root : Path) (opts : FindOptions) (p : Path),
      p ∈ find_threads_with_options fs mt start root opts →
      ∃ d name, p = d ++ [".threads", name] ∧ fs.isFile p = true ∧
        pySuffix name = ".md" ∧ hasArchiveSeg p = false) := by
  refine ⟨mem_collect_iff, ?_⟩
  intro fs mt start root opts p hp
  unfold find_threads_with_options at hp
  rw [mem_sortByMtimeDesc] at hp
  have hsome : ∃ e, p ∈ collectThreadsAtPath fs e := by
    rcases List.mem_append.mp hp with hp1 | hup
    · rcases List.mem_append.mp hp1 with hp0 | hdown
      · exact ⟨start, hp0⟩
      · rcases hopt : opts.down with _ | dv
        · rw [hopt] at hdown
          exact absurd hdown (by simp)
        · rw [hopt] at hdown
          exact mem_downF_collect hdown
    · rcases hopt : opts.up with _ | uv
      · rw [hopt] at hup
        exact absurd hup (by simp)
      · rw [hopt] at hup
        exact mem_upF_collect hup
  obtain ⟨e, he⟩ := hsome
  obtain ⟨-, hfile, harch, name, rfl, hsuf⟩ := (mem_collect_iff fs e p).mp he
  exact ⟨e, name, rfl, hfile, hsuf, harch⟩

/-- C9 witness: the depth-zero record of the concrete workspace decomposes
as required. -/
theorem search_results_qualify_witness :
    ∃ d name, (["r", ".threads", "t0.md"] : Path) = d ++ [".threads", name] ∧
      fsDepth.isFile ["r", ".threads", "t0.md"] = true ∧
      pySuffix name = ".md" ∧ hasArchiveSeg ["r", ".threads", "t0.md"] = false :=
  search_results_qualify.2 fsDepth (fun _ => 0) ["r"] ["r"] { down := some 1 }
    ["r", ".threads", "t0.md"] (by decide)

/-! ## C8: upward search -/

theorem dropLast_ne_self {α : Type _} {l : List α} (h : l ≠ []) : l.dropLast ≠ l := by
  intro heq
  have h1 := List.length_dropLast l
  have h2 : 0 < l.length := List.length_pos.mpr h
  rw [heq] at h1
  omega

/-- One unfolding step of the full-fuel upward walk: the wrapper satisfies
the recurrence of the source loop. -/
theorem findThreadsUp_unfold (fs : FS) (start root : Path) (cd maxd : Int) (c : Bool) :
    findThreadsUp fs start root cd maxd c =
      if maxd ≥ 0 ∧ cd ≥ maxd then []
      else if start.dropLast = start then []
      else if ¬c = true ∧ ¬(root.isPrefixOf start.dropLast = true) then []
      else
        collectThreadsAtPath fs start.dropLast ++
          findThreadsUp fs start.dropLast root (cd + 1) maxd c := by
  unfold findThreadsUp
  rw [findThreadsUpF]
  dsimp only
  by_cases h1 : maxd ≥ 0 ∧ cd ≥ maxd
  · rw [if_pos h1, if_pos h1]
  · rw [if_neg h1, if_neg h1]
    by_cases h2 : start.dropLast = start
    · rw [if_pos h2, if_pos h2]
    · rw [if_neg h2, if_neg h2]
      by_cases h3 : ¬c = true ∧ ¬(root.isPrefixOf start.dropLast = true)
      · rw [if_pos h3, if_pos h3]
      · rw [if_neg h3, if_neg h3]
        have hne : start ≠ [] := by
          intro hnil
          exact h2 (by rw [hnil, List.dropLast_nil])
        have hlen : start.dropLast.length + 1 = start.length := by
          have := List.length_dropLast start
          have := List.length_pos.mpr hne
          omega
        rw [hlen]

theorem expectedUpFrom_zero (start : Path) : expectedUpFrom start 0 = [] := by
  simp [expectedUpFrom]

theorem expectedUpFrom_succ (start : Path) (k : Nat) :
    expectedUpFrom start (k + 1) = start.dropLast :: expectedUpFrom start.dropLast k := by
  unfold expectedUpFrom
  rw [List.range_succ_eq_map, List.map_cons, List.map_map]
  congr 1
  · rw [Nat.sub_zero, List.dropLast_eq_take]
  · apply List.map_congr_left
    intro i _
    show start.take (start.length - 1 - (i + 1)) = start.dropLast.take (start.dropLast.length - 1 - i)
    rw [List.dropLast_eq_take, List.take_take, List.length_take]
    congr 1
    omega

theorem upCount_zero_of_stop {start root : Path} {maxd cd : Int}
    (h : maxd ≥ 0 ∧ cd ≥ maxd) : upCount start root maxd cd = 0 := by
  unfold upCount
  rw [if_neg (by omega)]
  omega

theorem upCount_succ {start root : Path} {maxd cd : Int}
    (hpre : root <+: start) (hne : root ≠ start)
    (hstop : ¬(maxd ≥ 0 ∧ cd ≥ maxd)) :
    upCount start root maxd cd = upCount start.dropLast root maxd (cd + 1) + 1 := by
  have hlenle := hpre.length_le
  have hlt := prefix_length_lt_of_ne hpre hne
  have hld := List.length_dropLast start
  unfold upCount
  by_cases hm : maxd < 0
  · rw [if_pos hm, if_pos hm]
    omega
  · rw [if_neg hm, if_neg hm]
    omega

/-- The upward walk without boundary crossing equals the specified
ancestor chain, each visited directory contributing its reserved
subdirectory's records in order. -/
theorem findThreadsUp_eq_expected (fs : FS) (root : Path) :
    ∀ (n : Nat) (start : Path), start.length = n → root <+: start →
      ∀ (cd maxd : Int),
      findThreadsUp fs start root cd maxd false =
        (expectedUpFrom start (upCount start root maxd cd)).flatMap
          (collectThreadsAtPath fs) := by
  intro n
  induction n with
  | zero =>
    intro start hlen hpre cd maxd
    have hnil : start = [] := List.length_eq_zero.mp hlen
    have hroot : root = [] := by
      rw [hnil] at hpre
      exact List.prefix_nil.mp hpre
    rw [findThreadsUp_unfold]
    have hcount : upCount start root maxd cd = 0 := by
      unfold upCount
      rw [hnil, hroot]
      by_cases hm : maxd < 0
      · rw [if_pos hm]
        simp
      · rw [if_neg hm]
        simp
    rw [hcount, expectedUpFrom_zero, List.flatMap_nil]
    by_cases h1 : maxd ≥ 0 ∧ cd ≥ maxd
    · rw [if_pos h1]
    · rw [if_neg h1, if_pos (by rw [hnil, List.dropLast_nil])]
  | succ n ih =>
    intro start hlen hpre cd maxd
    have hne : start ≠ [] := by
      intro hnil
      rw [hnil] at hlen
      simp only [List.length_nil] at hlen
      omega
    rw [findThreadsUp_unfold]
    by_cases h1 : maxd ≥ 0 ∧ cd ≥ maxd
    · rw [if_pos h1, upCount_zero_of_stop h1, expectedUpFrom_zero, List.flatMap_nil]
    · rw [if_neg h1, if_neg (dropLast_ne_self hne)]
      by_cases hroot : root = start
      · have hnp : ¬(root.isPrefixOf start.dropLast = true) := by
          rw [List.isPrefixOf_iff_prefix]
          intro hp
          have h4 := hp.length_le
          have h5 := List.length_dropLast start
          have h6 := List.length_pos.mpr hne
          rw [hroot] at h4
          omega
        rw [if_pos ⟨by simp, hnp⟩]
        have hcount : upCount start root maxd cd = 0 := by
          unfold upCount
          rw [hroot]
          by_cases hm : maxd < 0
          · rw [if_pos hm]
            omega
          · rw [if_neg hm]
            simp
        rw [hcount, expectedUpFrom_zero, List.flatMap_nil]
      · have hppre : root <+: start.dropLast :=
          prefix_dropLast_of_ne hpre hroot
        rw [if_neg (by
          rintro ⟨-, hnp⟩
          exact hnp (List.isPrefixOf_iff_prefix.mpr hppre))]
        rw [upCount_succ hpre hroot h1, expectedUpFrom_succ, List.flatMap_cons]
        congr 1
        apply ih
        · have := List.length_dropLast start
          omega
        · exact hppre

/-- C8: with an upward depth set and the cross-boundary flag unset, the
upward search collects the records of each successive parent directory in
walk order; every visited directory is a proper ancestor of the start that
still lies under the git root (nothing above the root is visited); and the
root itself is visited exactly when the start lies strictly below it and
the depth budget reaches it (stopping also at the filesystem root and when
the depth is exhausted, both captured by the visited-count formula). -/
theorem up_search_characterization (fs : FS) (start root : Path) (maxd : Int)
    (hpre : root <+: start) :
    findThreadsUp fs start root 0 maxd false =
      (expectedUpDirs start root maxd).flatMap (collectThreadsAtPath fs) ∧
    (∀ d ∈ expectedUpDirs start root maxd, root <+: d ∧ d <+: start ∧ d ≠ start) ∧
    (root ∈ expectedUpDirs start root maxd ↔
      root ≠ start ∧ (maxd < 0 ∨ start.length - root.length ≤ maxd.toNat)) := by
  have hlenle := hpre.length_le
  have hdirs : expectedUpDirs start root maxd =
      expectedUpFrom start (upCount start root maxd 0) := by
    unfold expectedUpDirs upCount
    by_cases hm : maxd < 0
    · rw [if_pos hm, if_pos hm]
    · rw [if_neg hm, if_neg hm, Int.sub_zero]
  have hkle : upCount start root maxd 0 ≤ start.length - root.length := by
    unfold upCount
    by_cases hm : maxd < 0
    · rw [if_pos hm]
    · rw [if_neg hm]
      omega
  refine ⟨?_, ?_, ?_⟩
  · rw [hdirs]
    exact findThreadsUp_eq_expected fs root start.length start rfl hpre 0 maxd
  · rw [hdirs]
    intro d hd
    unfold expectedUpFrom at hd
    rw [List.mem_map] at hd
    obtain ⟨i, hi, rfl⟩ := hd
    rw [List.mem_range] at hi
    have hbound : root.length ≤ start.length - 1 - i := by omega
    have hlt : start.length - 1 - i < start.length := by omega
    refine ⟨?_, List.take_prefix _ _, ?_⟩
    · rw [List.prefix_iff_eq_take] at hpre ⊢
      rw [List.take_take, min_eq_left hbound]
      exact hpre
    · intro heq
      have := congrArg List.length heq
      rw [List.length_take] at this
      omega
  · rw [hdirs]
    unfold expectedUpFrom
    rw [List.mem_map]
    constructor
    · rintro ⟨i, hi, heq⟩
      rw [List.mem_range] at hi
      have hlen := congrArg List.length heq
      rw [List.length_take] at hlen
      have hrl : root.length = start.length - 1 - i := by omega
      have hgt : root.length < start.length := by omega
      constructor
      · intro habs
        rw [habs] at hgt
        omega
      · unfold upCount at hi
        by_cases hm : maxd < 0
        · exact Or.inl hm
        · rw [if_neg hm] at hi
          right
          omega
    · rintro ⟨hne, hcond⟩
      have hgt : root.length < start.length :=
        prefix_length_lt_of_ne hpre hne
      refine ⟨start.length - 1 - root.length, ?_, ?_⟩
      · rw [List.mem_range]
        unfold upCount
        by_cases hm : maxd < 0
        · rw [if_pos hm]
          omega
        · rw [if_neg hm]
          rcases hcond with hm2 | hle
          · omega
          · omega
      · have : start.length - 1 - (start.length - 1 - root.length) = root.length := by
          omega
        rw [this]
        exact (List.prefix_iff_eq_take.mp hpre).symm

/-- C8 witness: from the concrete workspace, searching upward without
bound from below the root collects the two ancestors up to the root and
nothing above it. -/
theorem up_search_characterization_witness :
    findThreadsUp fsUp ["top", "r", "m", "s"] ["top", "r"] 0 (-1) false =
      (expectedUpDirs ["top", "r", "m", "s"] ["top", "r"] (-1)).flatMap
        (collectThreadsAtPath fsUp) :=
  (up_search_characterization fsUp ["top", "r", "m", "s"] ["top", "r"] (-1)
    (by decide)).1

/-! ## C1 infrastructure: strings, splitting, joining, stripping -/

theorem toList_append (a b : String) : (a ++ b).toList = a.toList ++ b.toList :=
  String.data_append a b

theorem str_toList_inj {s t : String} (h : s.toList = t.toList) : s = t :=
  String.ext h

theorem splitCharList_nil (sep : Char) : splitCharList sep [] = [[]] := rfl

theorem splitCharList_cons (sep c : Char) (cs : List Char) :
    splitCharList sep (c :: cs) =
      match splitCharList sep cs with
      | [] => [[]]
      | h :: t => if c = sep then [] :: h :: t else (c :: h) :: t := rfl

theorem splitCharList_cons_of {sep c : Char} {cs : List Char} {h : List Char}
    {t : List (List Char)} (hs : splitCharList sep cs = h :: t) :
    splitCharList sep (c :: cs) = if c = sep then [] :: h :: t else (c :: h) :: t := by
  rw [splitCharList_cons, hs]

theorem splitCharList_ne_nil (sep : Char) : ∀ cs, splitCharList sep cs ≠ []
  | [] => by simp [splitCharList_nil]
  | c :: cs => by
    rcases hs : splitCharList sep cs with _ | ⟨h, t⟩
    · exact absurd hs (splitCharList_ne_nil sep cs)
    · rw [splitCharList_cons_of hs]
      by_cases hc : c = sep <;> simp [hc]

theorem splitCharList_append (sep : Char) (as bs : List Char) :
    splitCharList sep (as ++ sep :: bs) = splitCharList sep as ++ splitCharList sep bs := by
  induction as with
  | nil =>
    rcases hs : splitCharList sep bs with _ | ⟨h, t⟩
    · exact absurd hs (splitCharList_ne_nil sep bs)
    · rw [List.nil_append, splitCharList_cons_of hs, if_pos rfl]
      simp [splitCharList_nil, hs]
  | cons a as ih =>
    rcases hs : splitCharList sep as with _ | ⟨h, t⟩
    · exact absurd hs (splitCharList_ne_nil sep as)
    · have hs2 : splitCharList sep (as ++ sep :: bs) = h :: (t ++ splitCharList sep bs) := by
        rw [ih, hs]
        rfl
      rw [List.cons_append, splitCharList_cons_of hs2, splitCharList_cons_of hs]
      by_cases hc : a = sep
      · rw [if_pos hc, if_pos hc]
        rfl
      · rw [if_neg hc, if_neg hc]
        rfl

theorem splitCharList_no_sep (sep : Char) : ∀ (cs : List Char), ¬sep ∈ cs →
    splitCharList sep cs = [cs]
  | [], _ => rfl
  | c :: cs, h => by
    have hrec := splitCharList_no_sep sep cs (fun hm => h (List.mem_cons_of_mem c hm))
    rw [splitCharList_cons_of hrec,
      if_neg (fun hc => h (by rw [hc]; exact List.mem_cons_self sep cs))]

theorem splitLines_eq (s : String) :
    splitLines s = (splitCharList '\n' s.toList).map (fun cs => (⟨cs⟩ : String)) := rfl

theorem splitLines_single (s : String) (h : ¬ '\n' ∈ s.toList) : splitLines s = [s] := by
  rw [splitLines_eq, splitCharList_no_sep _ _ h]
  rfl

theorem joinLines_nil : joinLines [] = "" := rfl

theorem joinLines_single (x : String) : joinLines [x] = x := rfl

theorem joinLines_cons (x : String) (ls : List String) (h : ls ≠ []) :
    joinLines (x :: ls) = x ++ "\n" ++ joinLines ls := by
  rcases ls with _ | ⟨y, t⟩
  · exact absurd rfl h
  · rfl

theorem splitLines_append_nl (a b : String) :
    splitLines (a ++ "\n" ++ b) = splitLines a ++ splitLines b := by
  rw [splitLines_eq, splitLines_eq, splitLines_eq]
  have : (a ++ "\n" ++ b).toList = a.toList ++ '\n' :: b.toList := by
    rw [toList_append, toList_append]
    simp
  rw [this, splitCharList_append, List.map_append]

theorem splitLines_joinLines (ls : List String) (h : ls ≠ []) :
    splitLines (joinLines ls) = ls.flatMap splitLines := by
  induction ls with
  | nil => exact absurd rfl h
  | cons x t ih =>
    rcases t with _ | ⟨y, t'⟩
    · rw [joinLines_single, List.flatMap_cons, List.flatMap_nil, List.append_nil]
    · rw [joinLines_cons x (y :: t') (by simp), splitLines_append_nl,
        ih (by simp), List.flatMap_cons]
      rw [List.flatMap_cons, List.flatMap_cons]

theorem joinLines_map_toList : ∀ (ls : List (List Char)),
    (joinLines (ls.map (fun l => (⟨l⟩ : String)))).toList = joinCharL ls
  | [] => rfl
  | [x] => rfl
  | x :: y :: t => by
    rw [List.map_cons, joinLines_cons _ _ (by simp), toList_append, toList_append]
    rw [show (List.map (fun l => (⟨l⟩ : String)) (y :: t)) =
      ((y :: t).map (fun l => (⟨l⟩ : String))) from rfl]
    rw [joinLines_map_toList (y :: t), List.append_assoc]
    rfl

theorem joinCharL_splitCharList : ∀ cs : List Char,
    joinCharL (splitCharList '\n' cs) = cs
  | [] => rfl
  | c :: cs => by
    have ih := joinCharL_splitCharList cs
    rcases hs : splitCharList '\n' cs with _ | ⟨h, t⟩
    · exact absurd hs (splitCharList_ne_nil '\n' cs)
    · rw [splitCharList_cons_of hs]
      rw [hs] at ih
      by_cases hc : c = '\n'
      · subst hc
        show [] ++ '\n' :: joinCharL (h :: t) = '\n' :: cs
        rw [ih]
        rfl
      · rw [if_neg hc]
        rcases t with _ | ⟨t1, t2⟩
        · show c :: h = c :: cs
          rw [show h = cs from ih]
        · show (c :: h) ++ '\n' :: joinCharL (t1 :: t2) = c :: cs
          rw [← ih]
          rfl

theorem joinLines_splitLines (s : String) : joinLines (splitLines s) = s := by
  apply str_toList_inj
  rw [splitLines_eq, joinLines_map_toList, joinCharL_splitCharList]

theorem pyStripList_cons_ws {c : Char} (cs : List Char) (hc : isPyWs c = true) :
    pyStripList (c :: cs) = pyStripList cs := by
  unfold pyStripList
  rw [List.dropWhile_cons, if_pos hc]

theorem pyStrip_newline_prefix (s : String) : pyStrip ("\n" ++ s) = pyStrip s := by
  unfold pyStrip
  rw [toList_append]
  exact congrArg _ (pyStripList_cons_ws s.toList rfl)

theorem dropWhile_eq_self_of_head {p : Char → Bool} {c : Char} (cs : List Char)
    (hc : p c = false) : (c :: cs).dropWhile p = c :: cs := by
  rw [List.dropWhile_cons, if_neg (by rw [hc]; exact Bool.false_ne_true)]

theorem pyStripList_eq_self_pair {a b : Char} (mid : List Char)
    (ha : isPyWs a = false) (hb : isPyWs b = false) :
    pyStripList (a :: mid ++ [b]) = a :: mid ++ [b] := by
  unfold pyStripList
  rw [show (a :: mid ++ [b]).dropWhile isPyWs = a :: mid ++ [b] from
    dropWhile_eq_self_of_head _ ha]
  rw [show (a :: mid ++ [b]).reverse = b :: (a :: mid).reverse by
    rw [show a :: mid ++ [b] = (a :: mid) ++ [b] from rfl, List.reverse_append]
    rfl]
  rw [dropWhile_eq_self_of_head _ hb]
  rw [show b :: (a :: mid).reverse = ((a :: mid) ++ [b]).reverse by
    rw [List.reverse_append]
    rfl]
  rw [List.reverse_reverse]

theorem pyStripList_single {a : Char} (ha : isPyWs a = false) :
    pyStripList [a] = [a] := by
  unfold pyStripList
  rw [dropWhile_eq_self_of_head _ ha,
    show ([a] : List Char).reverse = [a] from rfl,
    dropWhile_eq_self_of_head _ ha]
  rfl

theorem pyRstripList_eq_self_last {b : Char} (pre : List Char) (hb : isPyWs b = false) :
    pyRstripList (pre ++ [b]) = pre ++ [b] := by
  unfold pyRstripList
  rw [List.reverse_append]
  show ((b :: pre.reverse).dropWhile isPyWs).reverse = pre ++ [b]
  rw [dropWhile_eq_self_of_head _ hb]
  rw [show b :: pre.reverse = (pre ++ [b]).reverse by rw [List.reverse_append]; rfl]
  rw [List.reverse_reverse]

theorem isPyWs_cases {c : Char} (h : isPyWs c = true) :
    c = ' ' ∨ c = '\t' ∨ c = '\n' ∨ c = '\r' ∨
      c = Char.ofNat 11 ∨ c = Char.ofNat 12 := by
  unfold isPyWs at h
  simp only [Bool.or_eq_true, beq_iff_eq] at h
  tauto

theorem hex_not_ws {c : Char} (h : isHexLower c = true) : isPyWs c = false := by
  cases hw : isPyWs c
  · rfl
  · rcases isPyWs_cases hw with rfl | rfl | rfl | rfl | rfl | rfl <;>
      exact absurd h (by decide)

theorem digit_not_ws {c : Char} (h : c.isDigit = true) : isPyWs c = false :=
  hex_not_ws (by unfold isHexLower; rw [h]; rfl)

theorem ws_ne_of_not_ws {c x : Char} (h : isPyWs c = true) (hx : isPyWs x = false) :
    c ≠ x := by
  intro he
  rw [he, hx] at h
  exact Bool.false_ne_true h

theorem pyStripList_length_le (l : List Char) : (pyStripList l).length ≤ l.length := by
  unfold pyStripList
  rw [List.length_reverse]
  refine le_trans (List.dropWhile_sublist _).length_le ?_
  rw [List.length_reverse]
  exact (List.dropWhile_sublist _).length_le

theorem pyRstripList_length_le (l : List Char) : (pyRstripList l).length ≤ l.length := by
  unfold pyRstripList
  rw [List.length_reverse]
  refine le_trans (List.dropWhile_sublist _).length_le ?_
  rw [List.length_reverse]

theorem pyStripList_ws_suffix {c : Char} (l : List Char) (hc : isPyWs c = true) :
    pyStripList (l ++ [c]) = pyStripList l := by
  unfold pyStripList
  rw [List.dropWhile_append]
  by_cases he : (l.dropWhile isPyWs).isEmpty
  · rw [if_pos he]
    rw [List.isEmpty_iff] at he
    rw [he]
    show ((List.dropWhile isPyWs [c]).reverse.dropWhile isPyWs).reverse = _
    rw [List.dropWhile_cons, if_pos hc]
    rfl
  · rw [if_neg he, List.reverse_append]
    show ((c :: (l.dropWhile isPyWs).reverse).dropWhile isPyWs).reverse = _
    rw [List.dropWhile_cons, if_pos hc]

theorem pyRstripList_ws_suffix {c : Char} (l : List Char) (hc : isPyWs c = true) :
    pyRstripList (l ++ [c]) = pyRstripList l := by
  unfold pyRstripList
  rw [List.reverse_append]
  show ((c :: l.reverse).dropWhile isPyWs).reverse = _
  rw [List.dropWhile_cons, if_pos hc]

theorem head_not_ws_of_strip_self {c : Char} {t : List Char}
    (h : pyStripList (c :: t) = c :: t) : isPyWs c = false := by
  cases hc : isPyWs c
  · rfl
  · exfalso
    have hlen := pyStripList_length_le t
    rw [← pyStripList_cons_ws t hc, h, List.length_cons] at hlen
    omega

theorem last_not_ws_of_strip_self {l : List Char} {c : Char}
    (h : pyStripList (l ++ [c]) = l ++ [c]) : isPyWs c = false := by
  cases hc : isPyWs c
  · rfl
  · exfalso
    have hlen := pyStripList_length_le l
    rw [← pyStripList_ws_suffix l hc, h, List.length_append, List.length_singleton] at hlen
    omega

theorem last_not_ws_of_rstrip_self {l : List Char} {c : Char}
    (h : pyRstripList (l ++ [c]) = l ++ [c]) : isPyWs c = false := by
  cases hc : isPyWs c
  · rfl
  · exfalso
    have hlen := pyRstripList_length_le l
    rw [← pyRstripList_ws_suffix l hc, h, List.length_append, List.length_singleton] at hlen
    omega

theorem pyRstripList_append (a b : List Char) (hb : pyRstripList b = b) (hbne : b ≠ []) :
    pyRstripList (a ++ b) = a ++ b := by
  have hbr : b.reverse.dropWhile isPyWs = b.reverse := by
    have h2 := congrArg List.reverse hb
    rwa [show (pyRstripList b).reverse = b.reverse.dropWhile isPyWs by
      unfold pyRstripList; rw [List.reverse_reverse]] at h2
  unfold pyRstripList
  rw [List.reverse_append, List.dropWhile_append, hbr,
    if_neg (by simp [List.isEmpty_iff, hbne]), List.reverse_append,
    List.reverse_reverse, List.reverse_reverse]

theorem pyStripList_eq_self_of_ends (l : List Char)
    (h1 : ∀ c, l.head? = some c → isPyWs c = false)
    (h2 : ∀ c, l.getLast? = some c → isPyWs c = false) : pyStripList l = l := by
  rcases l with _ | ⟨a, t⟩
  · rfl
  · rcases t.eq_nil_or_concat with rfl | ⟨mid, b, rfl⟩
    · exact pyStripList_single (h1 a rfl)
    · rw [List.concat_eq_append]
      refine pyStripList_eq_self_pair mid (h1 a rfl) (h2 b ?_)
      rw [List.concat_eq_append,
        show a :: (mid ++ [b]) = (a :: mid) ++ [b] from rfl]
      exact List.getLast?_concat _

theorem dropWhile_of_last_not_ws {l : List Char} {z : Char}
    (h : l.getLast? = some z) (hz : isPyWs z = false) :
    l.dropWhile isPyWs ≠ [] ∧ (l.dropWhile isPyWs).getLast? = some z := by
  have hne : l ≠ [] := by
    intro he
    rw [he] at h
    exact Option.noConfusion h
  obtain ⟨l₀, rfl⟩ : ∃ l₀, l = l₀ ++ [z] := by
    refine ⟨l.dropLast, ?_⟩
    have := List.dropLast_append_getLast hne
    rw [show l.getLast hne = z from by
      have h2 := List.getLast?_eq_getLast l hne
      rw [h] at h2
      exact (Option.some.inj h2).symm] at this
    exact this.symm
  rw [List.dropWhile_append]
  by_cases he : (l₀.dropWhile isPyWs).isEmpty
  · rw [if_pos he, List.dropWhile_cons, if_neg (by simp [hz])]
    exact ⟨List.cons_ne_nil _ _, rfl⟩
  · rw [if_neg he]
    exact ⟨by simp, List.getLast?_concat _⟩

theorem mem_dropWhile_of_not_ws {c : Char} {l : List Char}
    (hc : isPyWs c = false) (h : c ∈ l) : c ∈ l.dropWhile isPyWs := by
  rw [← List.takeWhile_append_dropWhile (p := isPyWs) (l := l)] at h
  rcases List.mem_append.mp h with h | h
  · exfalso
    have := List.mem_takeWhile_imp h
    rw [hc] at this
    exact Bool.false_ne_true this
  · exact h

theorem commentTail_std (hx : List Char) (h4 : hx.length = 4)
    (hhex : hx.all isHexLower = true) :
    commentTail? (' ' :: ' ' :: '<' :: '!' :: '-' :: '-' :: ' ' ::
      (hx ++ [' ', '-', '-', '>'])) = some ⟨hx⟩ := by
  obtain ⟨a, b, c, d, rfl⟩ : ∃ a b c d, hx = [a, b, c, d] := by
    rcases hx with _ | ⟨a, _ | ⟨b, _ | ⟨c, _ | ⟨d, _ | ⟨e, t⟩⟩⟩⟩⟩ <;>
      simp only [List.length_nil, List.length_cons] at h4 <;>
      first
        | omega
        | exact ⟨a, b, c, d, rfl⟩
  have ha : isHexLower a = true := by
    simp only [List.all_cons, Bool.and_eq_true] at hhex
    exact hhex.1
  have hwa : isPyWs a = false := hex_not_ws ha
  simp only [commentTail?]
  have e1 : (' ' :: ' ' :: '<' :: '!' :: '-' :: '-' :: ' ' ::
      ([a, b, c, d] ++ [' ', '-', '-', '>'])).dropWhile isPyWs =
      '<' :: '!' :: '-' :: '-' :: ' ' :: ([a, b, c, d] ++ [' ', '-', '-', '>']) := by
    rw [List.dropWhile_cons, if_pos (by decide), List.dropWhile_cons,
      if_pos (by decide), List.dropWhile_cons, if_neg (by decide)]
  rw [e1]
  rw [if_pos (by rfl)]
  have e2 : ((' ' :: ([a, b, c, d] ++ [' ', '-', '-', '>'])).dropWhile isPyWs) =
      [a, b, c, d] ++ [' ', '-', '-', '>'] := by
    rw [List.dropWhile_cons, if_pos (by decide), show [a,b,c,d] ++ [' ','-','-','>'] =
      a :: (b :: c :: d :: [' ','-','-','>']) from rfl,
      List.dropWhile_cons, if_neg (by simp [hwa])]
  rw [show ('<' :: '!' :: '-' :: '-' :: ' ' ::
      ([a, b, c, d] ++ [' ', '-', '-', '>'])).drop 4 =
      ' ' :: ([a, b, c, d] ++ [' ', '-', '-', '>']) from rfl, e2]
  rw [if_pos (by
    rw [show ([a,b,c,d] ++ [' ','-','-','>']).take 4 = [a,b,c,d] from rfl,
      show ([a,b,c,d] ++ [' ','-','-','>']).drop 4 = [' ','-','-','>'] from rfl, hhex]
    rfl)]
  rfl

theorem commentTail_none_pre (u : List Char) (hu : u ≠ [])
    (hlast : ∀ c, u.getLast? = some c → isPyWs c = false) (hx : List Char)
    (hhex : hx.all isHexLower = true) :
    commentTail? (u ++ (' ' :: ' ' :: '<' :: '!' :: '-' :: '-' :: ' ' ::
      (hx ++ [' ', '-', '-', '>']))) = none := by
  have hzu : ∃ z, u.getLast? = some z := by
    rcases u.eq_nil_or_concat with rfl | ⟨u₀, z, rfl⟩
    · exact absurd rfl hu
    · exact ⟨z, by rw [List.concat_eq_append]; exact List.getLast?_concat _⟩
  obtain ⟨z, hz⟩ := hzu
  have hzw := hlast z hz
  have hw := dropWhile_of_last_not_ws hz hzw
  have hlt : ('<' : Char) ∈ (' ' :: ' ' :: '<' :: '!' :: '-' :: '-' :: ' ' ::
      (hx ++ [' ', '-', '-', '>'])) := by
    simp
  have hdw : (u ++ (' ' :: ' ' :: '<' :: '!' :: '-' :: '-' :: ' ' ::
      (hx ++ [' ', '-', '-', '>']))).dropWhile isPyWs =
      u.dropWhile isPyWs ++ (' ' :: ' ' :: '<' :: '!' :: '-' :: '-' :: ' ' ::
      (hx ++ [' ', '-', '-', '>'])) := by
    rw [List.dropWhile_append, if_neg (by simp [List.isEmpty_iff, hw.1])]
  simp only [commentTail?]
  rw [hdw]
  rcases hwc : u.dropWhile isPyWs with _ | ⟨a1, w⟩
  · exact absurd hwc hw.1
  rw [hwc] at hw
  cases hpre : "<!--".toList.isPrefixOf ((a1 :: w) ++ (' ' :: ' ' :: '<' :: '!' ::
      '-' :: '-' :: ' ' :: (hx ++ [' ', '-', '-', '>'])))
  · rw [if_neg Bool.false_ne_true]
  rcases w with _ | ⟨a2, w⟩
  · exfalso
    simp only [List.cons_append, List.nil_append, List.isPrefixOf,
      Bool.and_eq_true, beq_iff_eq] at hpre
    exact absurd hpre.2.1 (by decide)
  rcases w with _ | ⟨a3, w⟩
  · exfalso
    simp only [List.cons_append, List.nil_append, List.isPrefixOf,
      Bool.and_eq_true, beq_iff_eq] at hpre
    exact absurd hpre.2.2.1 (by decide)
  rcases w with _ | ⟨a4, w'⟩
  · exfalso
    simp only [List.cons_append, List.nil_append, List.isPrefixOf,
      Bool.and_eq_true, beq_iff_eq] at hpre
    exact absurd hpre.2.2.2.1 (by decide)
  rw [if_pos rfl]
  rw [show ((a1 :: a2 :: a3 :: a4 :: w') ++ (' ' :: ' ' :: '<' :: '!' ::
      '-' :: '-' :: ' ' :: (hx ++ [' ', '-', '-', '>']))).drop 4 =
      w' ++ (' ' :: ' ' :: '<' :: '!' :: '-' :: '-' :: ' ' ::
      (hx ++ [' ', '-', '-', '>'])) from rfl]
  rcases w' with _ | ⟨b0, w''⟩
  · rw [List.nil_append]
    have d1 : isPyWs ' ' = true := by decide
    have d2 : ¬(isPyWs '<' = true) := by decide
    rw [List.dropWhile_cons, if_pos d1, List.dropWhile_cons, if_pos d1,
      List.dropWhile_cons, if_neg d2]
    rw [if_neg]
    intro hcond
    exact Bool.false_ne_true hcond
  · have hz' : (a1 :: a2 :: a3 :: a4 :: b0 :: w'').getLast? = some z := hw.2
    have hz'' : (b0 :: w'').getLast? = some z := by
      rw [show a1 :: a2 :: a3 :: a4 :: b0 :: w'' =
        [a1, a2, a3, a4] ++ (b0 :: w'') from rfl] at hz'
      rwa [List.getLast?_append_of_ne_nil _ (List.cons_ne_nil _ _)] at hz'
    have hw2 := dropWhile_of_last_not_ws hz'' hzw
    have hdw2 : ((b0 :: w'') ++ (' ' :: ' ' :: '<' :: '!' :: '-' :: '-' :: ' ' ::
        (hx ++ [' ', '-', '-', '>']))).dropWhile isPyWs =
        (b0 :: w'').dropWhile isPyWs ++ (' ' :: ' ' :: '<' :: '!' :: '-' :: '-' ::
        ' ' :: (hx ++ [' ', '-', '-', '>'])) := by
      rw [List.dropWhile_append, if_neg (by simp [List.isEmpty_iff, hw2.1])]
    rw [hdw2]
    rcases hwc2 : (b0 :: w'').dropWhile isPyWs with _ | ⟨c1, v⟩
    · exact absurd hwc2 hw2.1
    rcases v with _ | ⟨c2, v⟩
    · rw [if_neg]
      intro hcond
      rw [Bool.and_eq_true, Bool.and_eq_true] at hcond
      rcases hcond with ⟨⟨_, hall⟩, _⟩
      rw [show ((c1 :: []) ++ (' ' :: ' ' :: '<' :: '!' :: '-' :: '-' :: ' ' ::
        (hx ++ [' ', '-', '-', '>']))).take 4 = [c1, ' ', ' ', '<'] from rfl] at hall
      simp only [List.all_cons, List.all_nil, Bool.and_eq_true] at hall
      exact absurd hall.2.1 (by decide)
    rcases v with _ | ⟨c3, v⟩
    · rw [if_neg]
      intro hcond
      rw [Bool.and_eq_true, Bool.and_eq_true] at hcond
      rcases hcond with ⟨⟨_, hall⟩, _⟩
      rw [show ((c1 :: c2 :: []) ++ (' ' :: ' ' :: '<' :: '!' :: '-' :: '-' :: ' ' ::
        (hx ++ [' ', '-', '-', '>']))).take 4 = [c1, c2, ' ', ' '] from rfl] at hall
      simp only [List.all_cons, List.all_nil, Bool.and_eq_true] at hall
      exact absurd hall.2.2.1 (by decide)
    rcases v with _ | ⟨c4, v⟩
    · rw [if_neg]
      intro hcond
      rw [Bool.and_eq_true, Bool.and_eq_true] at hcond
      rcases hcond with ⟨⟨_, hall⟩, _⟩
      rw [show ((c1 :: c2 :: c3 :: []) ++ (' ' :: ' ' :: '<' :: '!' :: '-' :: '-' ::
        ' ' :: (hx ++ [' ', '-', '-', '>']))).take 4 = [c1, c2, c3, ' '] from rfl] at hall
      simp only [List.all_cons, List.all_nil, Bool.and_eq_true] at hall
      exact absurd hall.2.2.2.1 (by decide)
    rw [show ((c1 :: c2 :: c3 :: c4 :: v) ++ (' ' :: ' ' :: '<' :: '!' ::
        '-' :: '-' :: ' ' :: (hx ++ [' ', '-', '-', '>']))).drop 4 =
        v ++ (' ' :: ' ' :: '<' :: '!' :: '-' :: '-' :: ' ' ::
        (hx ++ [' ', '-', '-', '>'])) from rfl]
    have hmem : ('<' : Char) ∈ (v ++ (' ' :: ' ' :: '<' :: '!' :: '-' :: '-' ::
        ' ' :: (hx ++ [' ', '-', '-', '>']))).dropWhile isPyWs :=
      mem_dropWhile_of_not_ws (by decide) (List.mem_append_right _ hlt)
    rw [if_neg]
    intro hcond
    rw [Bool.and_eq_true] at hcond
    rcases hcond with ⟨_, heq⟩
    rw [beq_iff_eq] at heq
    rw [heq] at hmem
    exact absurd hmem (by decide)

theorem eq_dropLast_append_of_getLast? {α : Type _} {l : List α} {c : α}
    (h : l.getLast? = some c) : l = l.dropLast ++ [c] := by
  have hne : l ≠ [] := by
    intro he
    rw [he] at h
    exact Option.noConfusion h
  have h2 := List.getLast?_eq_getLast l hne
  rw [h] at h2
  have h3 := List.dropLast_append_getLast hne
  rw [← (Option.some.inj h2)] at h3
  exact h3.symm

theorem head_not_ws_of_strip_self_str {s : String} (h : pyStrip s = s) :
    ∀ c, s.toList.head? = some c → isPyWs c = false := by
  intro c hc
  have hl : pyStripList s.toList = s.toList := congrArg String.toList h
  rcases hd : s.toList with _ | ⟨a, t⟩
  · rw [hd] at hc
    exact Option.noConfusion hc
  · rw [hd] at hc hl
    rw [show a = c from Option.some.inj hc] at hl
    exact head_not_ws_of_strip_self hl

theorem last_not_ws_of_strip_self_str {s : String} (h : pyStrip s = s) :
    ∀ c, s.toList.getLast? = some c → isPyWs c = false := by
  intro c hc
  have hl : pyStripList s.toList = s.toList := congrArg String.toList h
  rw [eq_dropLast_append_of_getLast? hc] at hl
  exact last_not_ws_of_strip_self hl

theorem last_not_ws_of_rstrip_self_str {s : String} (h : pyRstrip s = s) :
    ∀ c, s.toList.getLast? = some c → isPyWs c = false := by
  intro c hc
  have hl : pyRstripList s.toList = s.toList := congrArg String.toList h
  rw [eq_dropLast_append_of_getLast? hc] at hl
  exact last_not_ws_of_rstrip_self hl

theorem ne_empty_of_toList_cons {s : String} {c : Char} {t : List Char}
    (h : s.toList = c :: t) : s ≠ "" := by
  intro he
  rw [he] at h
  exact List.noConfusion h

theorem lazyTextSplit_step_some {acc : List Char} {c : Char} {rest : List Char}
    {h : String} (hc : commentTail? rest = some h) :
    lazyTextSplit acc (c :: rest) = some (⟨(c :: acc).reverse⟩, h) := by
  simp only [lazyTextSplit]
  rw [hc]

theorem lazyTextSplit_step_none {acc : List Char} {c : Char} {rest : List Char}
    (hc : commentTail? rest = none) :
    lazyTextSplit acc (c :: rest) = lazyTextSplit (c :: acc) rest := by
  simp only [lazyTextSplit]
  rw [hc]

theorem lazyTextSplit_run (hx : List Char) (h4 : hx.length = 4)
    (hhex : hx.all isHexLower = true) :
    ∀ (u acc : List Char), u ≠ [] →
      (∀ c, u.getLast? = some c → isPyWs c = false) →
      lazyTextSplit acc (u ++ (' ' :: ' ' :: '<' :: '!' :: '-' :: '-' :: ' ' ::
        (hx ++ [' ', '-', '-', '>']))) = some (⟨acc.reverse ++ u⟩, ⟨hx⟩)
  | [], _, hu, _ => absurd rfl hu
  | [c], acc, _, _ => by
    rw [List.cons_append, List.nil_append,
      lazyTextSplit_step_some (commentTail_std hx h4 hhex), List.reverse_cons]
  | c :: c₂ :: u₂, acc, _, hlast => by
    have hur : (c₂ :: u₂ : List Char) ≠ [] := List.cons_ne_nil _ _
    have hl2 : ∀ d, (c₂ :: u₂).getLast? = some d → isPyWs d = false := by
      intro d hd
      exact hlast d (by rw [List.getLast?_cons_cons]; exact hd)
    rw [List.cons_append,
      lazyTextSplit_step_none (commentTail_none_pre (c₂ :: u₂) hur hl2 hx hhex),
      lazyTextSplit_run hx h4 hhex (c₂ :: u₂) (c :: acc) hur hl2,
      List.reverse_cons, List.append_assoc]
    rfl

theorem noteStr_toList (n : Note) : (noteStr n).toList =
    '-' :: ' ' :: (n.text.toList ++ (' ' :: ' ' :: '<' :: '!' :: '-' :: '-' :: ' ' ::
      (n.hash.toList ++ [' ', '-', '-', '>']))) := by
  unfold noteStr
  rw [toList_append, toList_append, toList_append, toList_append]
  rw [show ("- " : String).toList = ['-', ' '] from rfl,
    show ("  <!-- " : String).toList = [' ', ' ', '<', '!', '-', '-', ' '] from rfl,
    show (" -->" : String).toList = [' ', '-', '-', '>'] from rfl]
  simp [List.append_assoc]

theorem noteLine_roundtrip (n : Note) (ht : TextOK n.text) (hh : HashOK n.hash) :
    noteLine? (noteStr n) = some n := by
  obtain ⟨hne, hnl, hstrip⟩ := ht
  obtain ⟨h4, hhex⟩ := hh
  have htl : n.text.toList ≠ [] := string_toList_ne_nil hne
  have hlast := last_not_ws_of_strip_self_str hstrip
  unfold noteLine?
  rw [if_pos (by
    unfold strStartsWith
    rw [noteStr_toList, show ("- " : String).toList = ['-', ' '] from rfl]
    simp [List.isPrefixOf])]
  rw [show (noteStr n).toList.drop 2 = n.text.toList ++ (' ' :: ' ' :: '<' :: '!' ::
    '-' :: '-' :: ' ' :: (n.hash.toList ++ [' ', '-', '-', '>'])) from by
      rw [noteStr_toList]
      rfl]
  rw [lazyTextSplit_run n.hash.toList h4 hhex n.text.toList [] htl hlast]
  rfl

theorem todoStr_toList (t : Todo) : (todoStr t).toList =
    '-' :: ' ' :: '[' :: (if t.checked then 'x' else ' ') :: ']' :: ' ' ::
      (t.text.toList ++ (' ' :: ' ' :: '<' :: '!' :: '-' :: '-' :: ' ' ::
      (t.hash.toList ++ [' ', '-', '-', '>']))) := by
  unfold todoStr
  cases hc : t.checked <;>
  · rw [toList_append, toList_append, toList_append, toList_append, toList_append,
      toList_append]
    rw [show ("- [" : String).toList = ['-', ' ', '['] from rfl,
      show ("] " : String).toList = [']', ' '] from rfl,
      show ("  <!-- " : String).toList = [' ', ' ', '<', '!', '-', '-', ' '] from rfl,
      show (" -->" : String).toList = [' ', '-', '-', '>'] from rfl]
    simp [List.append_assoc]

theorem todoLine_roundtrip (t : Todo) (ht : TextOK t.text) (hh : HashOK t.hash) :
    todoLine? (todoStr t) = some t := by
  obtain ⟨hne, hnl, hstrip⟩ := ht
  obtain ⟨h4, hhex⟩ := hh
  have htl : t.text.toList ≠ [] := string_toList_ne_nil hne
  have hlast := last_not_ws_of_strip_self_str hstrip
  unfold todoLine?
  rw [if_pos (by
    unfold strStartsWith
    rw [todoStr_toList, show ("- [" : String).toList = ['-', ' ', '['] from rfl]
    simp [List.isPrefixOf])]
  rw [show (todoStr t).toList.drop 3 = (if t.checked then 'x' else ' ') :: ']' ::
    ' ' :: (t.text.toList ++ (' ' :: ' ' :: '<' :: '!' :: '-' :: '-' :: ' ' ::
    (t.hash.toList ++ [' ', '-', '-', '>']))) from by rw [todoStr_toList]; rfl]
  rcases t with ⟨tx, th, tc⟩
  cases tc
  · show (if ((' ' == ' ' || ' ' == 'x') = true) then
        (match lazyTextSplit [] (tx.toList ++ (' ' :: ' ' :: '<' :: '!' :: '-' ::
          '-' :: ' ' :: (th.toList ++ [' ', '-', '-', '>']))) with
          | some (t, h) => some (Todo.mk t h (' ' == 'x'))
          | none => (none : Option Todo))
      else none) = some (Todo.mk tx th false)
    have hcnd : ((' ' == ' ' || ' ' == 'x') = true) := rfl
    rw [if_pos hcnd, lazyTextSplit_run th.toList h4 hhex tx.toList [] htl hlast]
    rfl
  · show (if (('x' == ' ' || 'x' == 'x') = true) then
        (match lazyTextSplit [] (tx.toList ++ (' ' :: ' ' :: '<' :: '!' :: '-' ::
          '-' :: ' ' :: (th.toList ++ [' ', '-', '-', '>']))) with
          | some (t, h) => some (Todo.mk t h ('x' == 'x'))
          | none => (none : Option Todo))
      else none) = some (Todo.mk tx th true)
    have hcnd : (('x' == ' ' || 'x' == 'x') = true) := rfl
    rw [if_pos hcnd, lazyTextSplit_run th.toList h4 hhex tx.toList [] htl hlast]
    rfl

theorem pyStrip_noteStr (n : Note) : pyStrip (noteStr n) = noteStr n := by
  apply str_toList_inj
  show pyStripList (noteStr n).toList = (noteStr n).toList
  rw [noteStr_toList]
  rw [show '-' :: ' ' :: (n.text.toList ++ (' ' :: ' ' :: '<' :: '!' :: '-' :: '-' ::
      ' ' :: (n.hash.toList ++ [' ', '-', '-', '>']))) =
      '-' :: ((' ' :: (n.text.toList ++ (' ' :: ' ' :: '<' :: '!' :: '-' :: '-' ::
      ' ' :: (n.hash.toList ++ [' ', '-', '-'])))) ++ ['>']) from by
    simp [List.append_assoc]]
  exact pyStripList_eq_self_pair _ (by decide) (by decide)

theorem pyStrip_todoStr (t : Todo) : pyStrip (todoStr t) = todoStr t := by
  apply str_toList_inj
  show pyStripList (todoStr t).toList = (todoStr t).toList
  rw [todoStr_toList]
  rw [show '-' :: ' ' :: '[' :: (if t.checked then 'x' else ' ') :: ']' :: ' ' ::
      (t.text.toList ++ (' ' :: ' ' :: '<' :: '!' :: '-' :: '-' :: ' ' ::
      (t.hash.toList ++ [' ', '-', '-', '>']))) =
      '-' :: ((' ' :: '[' :: (if t.checked then 'x' else ' ') :: ']' :: ' ' ::
      (t.text.toList ++ (' ' :: ' ' :: '<' :: '!' :: '-' :: '-' :: ' ' ::
      (t.hash.toList ++ [' ', '-', '-'])))) ++ ['>']) from by
    simp [List.append_assoc]]
  exact pyStripList_eq_self_pair _ (by decide) (by decide)

theorem noteStr_ne_empty (n : Note) : noteStr n ≠ "" :=
  ne_empty_of_toList_cons (noteStr_toList n)

theorem todoStr_ne_empty (t : Todo) : todoStr t ≠ "" :=
  ne_empty_of_toList_cons (todoStr_toList t)

theorem hex_no_newline {hx : List Char} (hhex : hx.all isHexLower = true) :
    ¬('\n' : Char) ∈ hx := by
  intro h
  have := List.all_eq_true.mp hhex _ h
  exact absurd this (by decide)

theorem noteStr_no_newline (n : Note) (hnl : ¬('\n' : Char) ∈ n.text.toList)
    (hh : HashOK n.hash) : ¬('\n' : Char) ∈ (noteStr n).toList := by
  intro hmem
  rw [noteStr_toList] at hmem
  simp at hmem
  rcases hmem with h | h
  · exact hnl h
  · exact hex_no_newline hh.2 h

theorem todoStr_no_newline (t : Todo) (hnl : ¬('\n' : Char) ∈ t.text.toList)
    (hh : HashOK t.hash) : ¬('\n' : Char) ∈ (todoStr t).toList := by
  intro hmem
  rw [todoStr_toList] at hmem
  rcases hc : t.checked <;> rw [hc] at hmem <;> simp at hmem <;>
    rcases hmem with h | h
  · exact hnl h
  · exact hex_no_newline hh.2 h
  · exact hnl h
  · exact hex_no_newline hh.2 h

theorem flatMap_splitLines_id (ls : List String)
    (h : ∀ s ∈ ls, splitLines s = [s]) : ls.flatMap splitLines = ls := by
  induction ls with
  | nil => rfl
  | cons x t ih =>
    rw [List.flatMap_cons, h x (List.mem_cons_self x t),
      ih (fun s hs => h s (List.mem_cons_of_mem x hs))]
    rfl

theorem splitLines_joinLines_singles (ls : List String) (hne : ls ≠ [])
    (h : ∀ s ∈ ls, ¬('\n' : Char) ∈ s.toList) :
    splitLines (joinLines ls) = ls := by
  rw [splitLines_joinLines ls hne]
  exact flatMap_splitLines_id ls (fun s hs => splitLines_single s (h s hs))

theorem filterMap_map_some {α β : Type _} (l : List α) (g : α → β)
    (f : β → Option α) (h : ∀ a ∈ l, f (g a) = some a) :
    (l.map g).filterMap f = l := by
  induction l with
  | nil => rfl
  | cons x t ih =>
    rw [List.map_cons, List.filterMap_cons, h x (List.mem_cons_self x t),
      ih (fun a ha => h a (List.mem_cons_of_mem x ha))]

theorem parse_notes_serialize (notes : List Note)
    (h : ∀ n ∈ notes, TextOK n.text ∧ HashOK n.hash) :
    parse_notes (serialize_notes notes) = notes := by
  rcases hns : notes with _ | ⟨n0, rest⟩
  · decide
  rw [← hns]
  have hnne : notes ≠ [] := by rw [hns]; exact List.cons_ne_nil _ _
  unfold serialize_notes
  rw [if_neg (by simp [List.isEmpty_iff, hnne])]
  unfold parse_notes
  rw [splitLines_joinLines_singles (notes.map noteStr) (by simp [hnne])
    (by
      intro s hs
      rcases List.mem_map.mp hs with ⟨n, hn, rfl⟩
      exact noteStr_no_newline n (h n hn).1.2.1 (h n hn).2)]
  refine filterMap_map_some notes noteStr _ ?_
  intro n hn
  show (if pyStrip (noteStr n) == "" then none else noteLine? (pyStrip (noteStr n)))
    = some n
  rw [pyStrip_noteStr n, if_neg (by
    rw [beq_eq_false_iff_ne.mpr (noteStr_ne_empty n)]
    exact Bool.false_ne_true)]
  exact noteLine_roundtrip n (h n hn).1 (h n hn).2

theorem parse_todos_serialize (todos : List Todo)
    (h : ∀ t ∈ todos, TextOK t.text ∧ HashOK t.hash) :
    parse_todos (serialize_todos todos) = todos := by
  rcases hns : todos with _ | ⟨t0, rest⟩
  · decide
  rw [← hns]
  have hnne : todos ≠ [] := by rw [hns]; exact List.cons_ne_nil _ _
  unfold serialize_todos
  rw [if_neg (by simp [List.isEmpty_iff, hnne])]
  unfold parse_todos
  rw [splitLines_joinLines_singles (todos.map todoStr) (by simp [hnne])
    (by
      intro s hs
      rcases List.mem_map.mp hs with ⟨t, ht, rfl⟩
      exact todoStr_no_newline t (h t ht).1.2.1 (h t ht).2)]
  refine filterMap_map_some todos todoStr _ ?_
  intro t ht
  show (if pyStrip (todoStr t) == "" then none else todoLine? (pyStrip (todoStr t)))
    = some t
  rw [pyStrip_todoStr t, if_neg (by
    rw [beq_eq_false_iff_ne.mpr (todoStr_ne_empty t)]
    exact Bool.false_ne_true)]
  exact todoLine_roundtrip t (h t ht).1 (h t ht).2


theorem sectionHeader?_none_of {l : String} (h : strStartsWith l "## " = false) :
    sectionHeader? l = none := by
  unfold sectionHeader?
  rw [h, if_neg Bool.false_ne_true]

theorem strStartsWith_hash_false {s : String} {c : Char} {t : List Char}
    (hl : s.toList = c :: t) (hc : c ≠ '#') : strStartsWith s "## " = false := by
  unfold strStartsWith
  rw [hl, show ("## " : String).toList = ['#', '#', ' '] from rfl]
  show (('#' == c) && (['#', ' '].isPrefixOf t)) = false
  rw [beq_eq_false_iff_ne.mpr (Ne.symm hc)]
  rfl

theorem strStartsWith_dateline_false (d : String) :
    strStartsWith ("### " ++ d) "## " = false := by
  unfold strStartsWith
  rw [toList_append]
  rfl

theorem sectionHeader?_empty : sectionHeader? "" = none := by decide

theorem buildSections_final (n : String) (acc : List String) :
    buildSections [] (some (n, acc)) = [(n, pyStrip (joinLines acc.reverse))] := rfl

theorem buildSections_skip (l : String) (hl : sectionHeader? l = none)
    (ls : List String) (n : String) (acc : List String) :
    buildSections (l :: ls) (some (n, acc)) =
      buildSections ls (some (n, l :: acc)) := by
  simp only [buildSections]
  rw [hl]

theorem buildSections_header (l nm : String) (hl : sectionHeader? l = some nm)
    (ls : List String) (n : String) (acc : List String) :
    buildSections (l :: ls) (some (n, acc)) =
      (n, pyStrip (joinLines acc.reverse)) :: buildSections ls (some (nm, [])) := by
  simp only [buildSections]
  rw [hl]
  rfl

theorem buildSections_header_start (l nm : String) (hl : sectionHeader? l = some nm)
    (ls : List String) :
    buildSections (l :: ls) none = buildSections ls (some (nm, [])) := by
  simp only [buildSections]
  rw [hl]
  rfl

theorem buildSections_run (body : List String)
    (hb : ∀ l ∈ body, sectionHeader? l = none) :
    ∀ (rest : List String) (n : String) (acc : List String),
    buildSections (body ++ rest) (some (n, acc)) =
      buildSections rest (some (n, body.reverse ++ acc)) := by
  induction body with
  | nil =>
    intro rest n acc
    rw [List.nil_append]
    rfl
  | cons l t ih =>
    intro rest n acc
    rw [List.cons_append, buildSections_skip l (hb l (List.mem_cons_self l t)) _ _ _,
      ih (fun s hs => hb s (List.mem_cons_of_mem l hs)) rest n (l :: acc)]
    rw [List.reverse_cons, List.append_assoc]
    rfl

theorem buildSections_chunk (hdr nm : String) (hh : sectionHeader? hdr = some nm)
    (body : List String) (hb : ∀ l ∈ body, sectionHeader? l = none)
    (rest : List String) (n : String) (acc : List String) :
    buildSections (hdr :: (body ++ rest)) (some (n, acc)) =
      (n, pyStrip (joinLines acc.reverse)) ::
        buildSections rest (some (nm, body.reverse)) := by
  rw [buildSections_header hdr nm hh, buildSections_run body hb rest nm []]
  rw [List.append_nil]

theorem buildSections_chunk_start (hdr nm : String) (hh : sectionHeader? hdr = some nm)
    (body : List String) (hb : ∀ l ∈ body, sectionHeader? l = none)
    (rest : List String) :
    buildSections (hdr :: (body ++ rest)) none =
      buildSections rest (some (nm, body.reverse)) := by
  rw [buildSections_header_start hdr nm hh, buildSections_run body hb rest nm []]
  rw [List.append_nil]


theorem joinLines_toList (ls : List String) :
    (joinLines ls).toList = joinCharL (ls.map String.toList) := by
  calc (joinLines ls).toList
      = (joinLines ((ls.map String.toList).map (fun l => (⟨l⟩ : String)))).toList := by
        rw [List.map_map,
          show ((fun l => (⟨l⟩ : String)) ∘ String.toList) = fun s => s from rfl,
          List.map_id']
    _ = joinCharL (ls.map String.toList) := joinLines_map_toList _

theorem joinCharL_cons (x : List Char) (xs : List (List Char)) (h : xs ≠ []) :
    joinCharL (x :: xs) = x ++ '\n' :: joinCharL xs := by
  rcases xs with _ | ⟨y, t⟩
  · exact absurd rfl h
  · rfl

theorem joinCharL_concat_nil (xs : List (List Char)) (h : xs ≠ []) :
    joinCharL (xs ++ [[]]) = joinCharL xs ++ ['\n'] := by
  induction xs with
  | nil => exact absurd rfl h
  | cons y t ih =>
    rcases t with _ | ⟨z, r⟩
    · rfl
    · rw [List.cons_append, joinCharL_cons y ((z :: r) ++ [[]]) (by simp),
        ih (by simp), joinCharL_cons y (z :: r) (by simp), List.append_assoc]
      rfl

theorem map_toList_splitLines (s : String) :
    (splitLines s).map String.toList = splitCharList '\n' s.toList := by
  rw [splitLines_eq, List.map_map,
    show (String.toList ∘ (fun cs => (⟨cs⟩ : String))) = fun cs => cs from rfl,
    List.map_id']

theorem strip_wrap (s : String) (hinv : pyStrip s = s) :
    pyStrip (joinLines ("" :: (splitLines s ++ [""]))) = s := by
  apply str_toList_inj
  show pyStripList (joinLines ("" :: (splitLines s ++ [""]))).toList = s.toList
  rw [joinLines_toList, List.map_cons, List.map_append, map_toList_splitLines,
    show (("" : String).toList) = ([] : List Char) from rfl,
    show ([("" : String)].map String.toList) = [([] : List Char)] from rfl]
  have hMne : splitCharList '\n' s.toList ≠ [] := splitCharList_ne_nil _ _
  rw [joinCharL_cons _ _ (by simp), List.nil_append,
    joinCharL_concat_nil _ hMne, joinCharL_splitCharList]
  rw [pyStripList_cons_ws _ (by decide), pyStripList_ws_suffix _ (by decide)]
  exact congrArg String.toList hinv

theorem strip_wrap_final (s : String) (hinv : pyStrip s = s) :
    pyStrip (joinLines ("" :: splitLines s)) = s := by
  apply str_toList_inj
  show pyStripList (joinLines ("" :: splitLines s)).toList = s.toList
  rw [joinLines_toList, List.map_cons, map_toList_splitLines,
    show (("" : String).toList) = ([] : List Char) from rfl]
  have hMne : splitCharList '\n' s.toList ≠ [] := splitCharList_ne_nil _ _
  rw [joinCharL_cons _ _ hMne, List.nil_append, joinCharL_splitCharList]
  rw [pyStripList_cons_ws _ (by decide)]
  exact congrArg String.toList hinv

theorem joinLines_toList_head (x : String) (ls : List String) {c : Char}
    {t : List Char} (hx : x.toList = c :: t) :
    (joinLines (x :: ls)).toList.head? = some c := by
  rcases ls with _ | ⟨y, r⟩
  · rw [joinLines_single, hx]
    rfl
  · rw [joinLines_cons x (y :: r) (by simp), toList_append, toList_append, hx]
    rfl

theorem joinLines_toList_getLast (ls : List String) (x : String) {c : Char}
    (hx : x.toList.getLast? = some c) :
    (joinLines (ls ++ [x])).toList.getLast? = some c := by
  induction ls with
  | nil =>
    rw [List.nil_append, joinLines_single]
    exact hx
  | cons y t ih =>
    have hne : (joinLines (t ++ [x])).toList ≠ [] := by
      intro he
      rw [he] at ih
      exact Option.noConfusion ih
    rw [List.cons_append, joinLines_cons y (t ++ [x]) (by simp), toList_append,
      toList_append, List.getLast?_append_of_ne_nil _ hne]
    exact ih

theorem noteStr_getLast (n : Note) : (noteStr n).toList.getLast? = some '>' := by
  rw [noteStr_toList,
    show '-' :: ' ' :: (n.text.toList ++ (' ' :: ' ' :: '<' :: '!' :: '-' :: '-' ::
      ' ' :: (n.hash.toList ++ [' ', '-', '-', '>']))) =
      (('-' :: ' ' :: n.text.toList) ++ [' ', ' ', '<', '!', '-', '-', ' ']) ++
      (n.hash.toList ++ [' ', '-', '-', '>']) from by simp,
    List.getLast?_append_of_ne_nil _ (by simp),
    List.getLast?_append_of_ne_nil _ (by simp)]
  rfl

theorem todoStr_getLast (t : Todo) : (todoStr t).toList.getLast? = some '>' := by
  rw [todoStr_toList,
    show '-' :: ' ' :: '[' :: (if t.checked then 'x' else ' ') :: ']' :: ' ' ::
      (t.text.toList ++ (' ' :: ' ' :: '<' :: '!' :: '-' :: '-' :: ' ' ::
      (t.hash.toList ++ [' ', '-', '-', '>']))) =
      (('-' :: ' ' :: '[' :: (if t.checked then 'x' else ' ') :: ']' :: ' ' ::
      t.text.toList) ++ [' ', ' ', '<', '!', '-', '-', ' ']) ++
      (t.hash.toList ++ [' ', '-', '-', '>']) from by simp,
    List.getLast?_append_of_ne_nil _ (by simp),
    List.getLast?_append_of_ne_nil _ (by simp)]
  rfl

theorem pyStrip_serialize_notes (notes : List Note) (hne : notes ≠ []) :
    pyStrip (serialize_notes notes) = serialize_notes notes := by
  unfold serialize_notes
  rw [if_neg (by simp [List.isEmpty_iff, hne])]
  apply str_toList_inj
  show pyStripList (joinLines (notes.map noteStr)).toList =
    (joinLines (notes.map noteStr)).toList
  apply pyStripList_eq_self_of_ends
  · intro c hc
    rcases hns : notes with _ | ⟨n0, rest⟩
    · exact absurd hns hne
    rw [hns, List.map_cons] at hc
    rw [joinLines_toList_head (noteStr n0) _ (noteStr_toList n0)] at hc
    rw [show c = '-' from (Option.some.inj hc).symm]
    decide
  · intro c hc
    rcases notes.eq_nil_or_concat with rfl | ⟨l₀, nl, rfl⟩
    · exact absurd rfl hne
    rw [List.concat_eq_append, List.map_append, List.map_singleton] at hc
    rw [joinLines_toList_getLast _ _ (noteStr_getLast nl)] at hc
    rw [show c = '>' from (Option.some.inj hc).symm]
    decide

theorem pyStrip_serialize_todos (todos : List Todo) (hne : todos ≠ []) :
    pyStrip (serialize_todos todos) = serialize_todos todos := by
  unfold serialize_todos
  rw [if_neg (by simp [List.isEmpty_iff, hne])]
  apply str_toList_inj
  show pyStripList (joinLines (todos.map todoStr)).toList =
    (joinLines (todos.map todoStr)).toList
  apply pyStripList_eq_self_of_ends
  · intro c hc
    rcases hns : todos with _ | ⟨t0, rest⟩
    · exact absurd hns hne
    rw [hns, List.map_cons] at hc
    rw [joinLines_toList_head (todoStr t0) _ (todoStr_toList t0)] at hc
    rw [show c = '-' from (Option.some.inj hc).symm]
    decide
  · intro c hc
    rcases todos.eq_nil_or_concat with rfl | ⟨l₀, tl, rfl⟩
    · exact absurd rfl hne
    rw [List.concat_eq_append, List.map_append, List.map_singleton] at hc
    rw [joinLines_toList_getLast _ _ (todoStr_getLast tl)] at hc
    rw [show c = '>' from (Option.some.inj hc).symm]
    decide

theorem buildSections_quad_noNotes (B TD LG : List String)
    (hB : ∀ l ∈ B, sectionHeader? l = none)
    (hTD : ∀ l ∈ TD, sectionHeader? l = none)
    (hLG : ∀ l ∈ LG, sectionHeader? l = none) :
    buildSections ("## Body" :: (B ++ ("## Todo" :: (TD ++ ("## Log" :: LG))))) none =
      [("Body", pyStrip (joinLines B)), ("Todo", pyStrip (joinLines TD)),
       ("Log", pyStrip (joinLines LG))] := by
  rw [buildSections_chunk_start "## Body" "Body" (by decide) B hB,
    buildSections_chunk "## Todo" "Todo" (by decide) TD hTD _ _ _,
    show ("## Log" :: LG) = "## Log" :: (LG ++ ([] : List String)) from by
      rw [List.append_nil],
    buildSections_chunk "## Log" "Log" (by decide) LG hLG [] _ _,
    buildSections_final, List.reverse_reverse, List.reverse_reverse,
    List.reverse_reverse]

theorem buildSections_quad_notes (B NN TD LG : List String)
    (hB : ∀ l ∈ B, sectionHeader? l = none)
    (hNN : ∀ l ∈ NN, sectionHeader? l = none)
    (hTD : ∀ l ∈ TD, sectionHeader? l = none)
    (hLG : ∀ l ∈ LG, sectionHeader? l = none) :
    buildSections ("## Body" :: (B ++ ("## Notes" :: (NN ++ ("## Todo" ::
      (TD ++ ("## Log" :: LG))))))) none =
      [("Body", pyStrip (joinLines B)), ("Notes", pyStrip (joinLines NN)),
       ("Todo", pyStrip (joinLines TD)), ("Log", pyStrip (joinLines LG))] := by
  rw [buildSections_chunk_start "## Body" "Body" (by decide) B hB,
    buildSections_chunk "## Notes" "Notes" (by decide) NN hNN _ _ _,
    buildSections_chunk "## Todo" "Todo" (by decide) TD hTD _ _ _,
    show ("## Log" :: LG) = "## Log" :: (LG ++ ([] : List String)) from by
      rw [List.append_nil],
    buildSections_chunk "## Log" "Log" (by decide) LG hLG [] _ _,
    buildSections_final, List.reverse_reverse, List.reverse_reverse,
    List.reverse_reverse, List.reverse_reverse]


theorem isDateShape_len {cs : List Char} (h : isDateShape cs = true) :
    cs.length = 10 := by
  unfold isDateShape at h
  split at h
  · rfl
  · exact absurd h Bool.false_ne_true

theorem isTimeShape_len {cs : List Char} (h : isTimeShape cs = true) :
    cs.length = 5 := by
  unfold isTimeShape at h
  split at h
  · rfl
  · exact absurd h Bool.false_ne_true

theorem isDateShape_last_digit {cs : List Char} (h : isDateShape cs = true) :
    ∃ l g, cs = l ++ [g] ∧ g.isDigit = true := by
  unfold isDateShape at h
  split at h
  · next a b c d e f g h2 =>
    simp only [Bool.and_eq_true] at h
    exact ⟨[a, b, c, d, '-', e, f, '-', g], h2, by simp, h.2⟩
  · exact absurd h Bool.false_ne_true

theorem isDateShape_no_newline {cs : List Char} (h : isDateShape cs = true) :
    ¬('\n' : Char) ∈ cs := by
  unfold isDateShape at h
  split at h
  · next a b c d e f g h2 =>
    obtain ⟨⟨⟨⟨⟨⟨⟨ha, hb⟩, hc⟩, hd⟩, he⟩, hf⟩, hg⟩, hh⟩ :=
      by simpa only [Bool.and_eq_true] using h
    intro hm
    simp only [List.mem_cons, List.not_mem_nil, or_false] at hm
    rcases hm with rfl | rfl | rfl | rfl | h' | rfl | rfl | h' | rfl | rfl
    · exact absurd ha (by decide)
    · exact absurd hb (by decide)
    · exact absurd hc (by decide)
    · exact absurd hd (by decide)
    · exact absurd h' (by decide)
    · exact absurd he (by decide)
    · exact absurd hf (by decide)
    · exact absurd h' (by decide)
    · exact absurd hg (by decide)
    · exact absurd hh (by decide)
  · exact absurd h Bool.false_ne_true

theorem isTimeShape_no_newline {cs : List Char} (h : isTimeShape cs = true) :
    ¬('\n' : Char) ∈ cs := by
  unfold isTimeShape at h
  split at h
  · next a b c d =>
    obtain ⟨⟨⟨ha, hb⟩, hc⟩, hd⟩ := by simpa only [Bool.and_eq_true] using h
    intro hm
    simp only [List.mem_cons, List.not_mem_nil, or_false] at hm
    rcases hm with rfl | rfl | h' | rfl | rfl
    · exact absurd ha (by decide)
    · exact absurd hb (by decide)
    · exact absurd h' (by decide)
    · exact absurd hc (by decide)
    · exact absurd hd (by decide)
  · exact absurd h Bool.false_ne_true

theorem logDate?_std (d : String) (hd : isDateShape d.toList = true) :
    logDate? ("### " ++ d) = some d := by
  have hlen := isDateShape_len hd
  unfold logDate?
  rw [if_pos (by
    unfold strStartsWith
    rw [toList_append, show ("### " : String).toList = ['#', '#', '#', ' '] from rfl]
    simp [List.isPrefixOf])]
  rw [show ("### " ++ d).toList.drop 4 = d.toList from by rw [toList_append]; rfl]
  dsimp only
  rw [List.take_of_length_le (by omega), List.drop_eq_nil_of_le (by omega), hd]
  rfl

theorem entryStr_toList (e : LogEntry) : (entryStr e).toList =
    '-' :: ' ' :: '*' :: '*' :: (e.time.toList ++ ('*' :: '*' :: ' ' ::
      e.text.toList)) := by
  unfold entryStr
  rw [toList_append, toList_append, toList_append,
    show ("- **" : String).toList = ['-', ' ', '*', '*'] from rfl,
    show ("** " : String).toList = ['*', '*', ' '] from rfl]
  simp [List.append_assoc]

theorem logEntry?_std (e : LogEntry) (htime : TimeOK e.time) (hrt : RTextOK e.text) :
    logEntry? (entryStr e) = some e := by
  have hlen := isTimeShape_len htime
  have htl : e.text.toList ≠ [] := string_toList_ne_nil hrt.1
  unfold logEntry?
  rw [if_pos (by
    unfold strStartsWith
    rw [entryStr_toList, show ("- **" : String).toList = ['-', ' ', '*', '*'] from rfl]
    simp [List.isPrefixOf])]
  rw [show (entryStr e).toList.drop 4 = e.time.toList ++ ('*' :: '*' :: ' ' ::
    e.text.toList) from by rw [entryStr_toList]; rfl]
  dsimp only
  rw [List.take_left' hlen,
    if_pos (show isTimeShape e.time.toList = true from htime), List.drop_left' hlen]
  show (if (e.text.toList.isEmpty = true) then none
    else some (LogEntry.mk ⟨e.time.toList⟩ ⟨e.text.toList⟩)) = some e
  rw [if_neg (by simp only [List.isEmpty_iff]; exact htl)]
  rfl

theorem pyRstrip_dateline (d : String) (hd : isDateShape d.toList = true) :
    pyRstrip ("### " ++ d) = "### " ++ d := by
  obtain ⟨l, g, hdg, hdig⟩ := isDateShape_last_digit hd
  apply str_toList_inj
  show pyRstripList ("### " ++ d).toList = ("### " ++ d).toList
  rw [toList_append, hdg,
    show ("### " : String).toList ++ (l ++ [g]) =
      (("### " : String).toList ++ l) ++ [g] from by rw [List.append_assoc]]
  exact pyRstripList_eq_self_last _ (digit_not_ws hdig)

theorem pyRstrip_entryStr (e : LogEntry) (hrt : RTextOK e.text) :
    pyRstrip (entryStr e) = entryStr e := by
  have htl : e.text.toList ≠ [] := string_toList_ne_nil hrt.1
  have hinv : pyRstripList e.text.toList = e.text.toList :=
    congrArg String.toList hrt.2.2
  apply str_toList_inj
  show pyRstripList (entryStr e).toList = (entryStr e).toList
  rw [entryStr_toList,
    show '-' :: ' ' :: '*' :: '*' :: (e.time.toList ++ ('*' :: '*' :: ' ' ::
      e.text.toList)) = (('-' :: ' ' :: '*' :: '*' :: e.time.toList) ++
      ['*', '*', ' ']) ++ e.text.toList from by simp]
  exact pyRstripList_append _ _ hinv htl

theorem dateline_ne_empty (d : String) : ("### " ++ d) ≠ "" := by
  apply ne_empty_of_toList_cons (t := '#' :: '#' :: ' ' :: d.toList)
  rw [toList_append]
  rfl

theorem entryStr_ne_empty (e : LogEntry) : entryStr e ≠ "" :=
  ne_empty_of_toList_cons (entryStr_toList e)

theorem strStartsWith_hashes_false {s : String} {c : Char} {t : List Char}
    (hl : s.toList = c :: t) (hc : c ≠ '#') : strStartsWith s "### " = false := by
  unfold strStartsWith
  rw [hl, show ("### " : String).toList = ['#', '#', '#', ' '] from rfl]
  show (('#' == c) && (['#', '#', ' '].isPrefixOf t)) = false
  rw [beq_eq_false_iff_ne.mpr (Ne.symm hc)]
  rfl

theorem logDate?_none_of {l : String} (h : strStartsWith l "### " = false) :
    logDate? l = none := by
  unfold logDate?
  rw [h, if_neg Bool.false_ne_true]

theorem dateline_no_newline (d : String) (hd : isDateShape d.toList = true) :
    ¬('\n' : Char) ∈ ("### " ++ d).toList := by
  intro hm
  rw [toList_append] at hm
  rcases List.mem_append.mp hm with h | h
  · exact absurd h (by decide)
  · exact isDateShape_no_newline hd h

theorem entryStr_no_newline (e : LogEntry) (htime : isTimeShape e.time.toList = true)
    (hnl : ¬('\n' : Char) ∈ e.text.toList) :
    ¬('\n' : Char) ∈ (entryStr e).toList := by
  intro hm
  rw [entryStr_toList] at hm
  simp only [List.mem_cons, List.mem_append] at hm
  rcases hm with h | h | h | h | h
  · exact absurd h (by decide)
  · exact absurd h (by decide)
  · exact absurd h (by decide)
  · exact absurd h (by decide)
  rcases h with h | h
  · exact isTimeShape_no_newline htime h
  rcases h with h | h | h | h
  · exact absurd h (by decide)
  · exact absurd h (by decide)
  · exact absurd h (by decide)
  · exact hnl h


theorem parseLogGo_blank (ls : List String) (cur : Option String) (acc : Log) :
    parseLogGo ("" :: ls) cur acc = parseLogGo ls cur acc := by
  simp only [parseLogGo]
  rw [show (pyRstrip "" == "") = true from rfl, if_pos rfl]

theorem parseLogGo_date (line : String) (hr : pyRstrip line = line)
    (hne : (line == "") = false) {d : String} (hd : logDate? line = some d)
    (ls : List String) (cur : Option String) (acc : Log) :
    parseLogGo (line :: ls) cur acc =
      parseLogGo ls (some d) (if logHasDate acc d then acc else acc ++ [(d, [])]) := by
  simp only [parseLogGo]
  rw [hr, hne, if_neg Bool.false_ne_true, hd]

theorem parseLogGo_entry (line : String) (hr : pyRstrip line = line)
    (hne : (line == "") = false) (hnd : logDate? line = none)
    {d : String} {e : LogEntry} (he : logEntry? line = some e)
    (ls : List String) (acc : Log) :
    parseLogGo (line :: ls) (some d) acc =
      parseLogGo ls (some d) (logAppendEntry acc d e) := by
  simp only [parseLogGo]
  rw [hr, hne, if_neg Bool.false_ne_true, hnd, he]

theorem map_eq_self_of {α : Type _} (l : List α) (f : α → α)
    (h : ∀ a ∈ l, f a = a) : l.map f = l := by
  induction l with
  | nil => rfl
  | cons x t ih =>
    rw [List.map_cons, h x (List.mem_cons_self x t),
      ih (fun a ha => h a (List.mem_cons_of_mem x ha))]

theorem logAppendEntry_concat (acc : Log) (d : String) (l : List LogEntry)
    (e : LogEntry) (hnd : logHasDate acc d = false) :
    logAppendEntry (acc ++ [(d, l)]) d e = acc ++ [(d, l ++ [e])] := by
  unfold logAppendEntry
  rw [List.map_append]
  have hall := List.any_eq_false.mp hnd
  congr 1
  · apply map_eq_self_of
    intro kv hkv
    rw [if_neg (hall kv hkv)]
  · rw [List.map_singleton, if_pos (by rw [show ((d, l).1 == d) = true from by
      rw [beq_self_eq_true]])]

theorem parseLogGo_entries (es : List LogEntry) :
    ∀ (hes : ∀ e ∈ es, TimeOK e.time ∧ RTextOK e.text) (more : List String)
      (d : String) (acc : Log) (l : List LogEntry),
      logHasDate acc d = false →
      parseLogGo ((es.map entryStr) ++ more) (some d) (acc ++ [(d, l)]) =
        parseLogGo more (some d) (acc ++ [(d, l ++ es)]) := by
  induction es with
  | nil =>
    intro _ more d acc l _
    rw [List.map_nil, List.nil_append, List.append_nil]
  | cons e es ih =>
    intro hes more d acc l hnd
    have he := hes e (List.mem_cons_self _ _)
    rw [List.map_cons, List.cons_append,
      parseLogGo_entry (entryStr e) (pyRstrip_entryStr e he.2)
        (beq_eq_false_iff_ne.mpr (entryStr_ne_empty e))
        (logDate?_none_of (strStartsWith_hashes_false (entryStr_toList e) (by decide)))
        (logEntry?_std e he.1 he.2),
      logAppendEntry_concat acc d l e hnd,
      ih (fun x hx => hes x (List.mem_cons_of_mem _ hx)) more d acc (l ++ [e]) hnd,
      List.append_assoc]
    rfl

theorem parseLogGo_run (E : String → List LogEntry) :
    ∀ (ds : List String), ds.Nodup →
      (∀ d ∈ ds, DateOK d ∧ ∀ e ∈ E d, TimeOK e.time ∧ RTextOK e.text) →
      ∀ (cur : Option String) (acc : Log), (∀ d ∈ ds, logHasDate acc d = false) →
      parseLogGo (ds.flatMap (fun d => ("### " ++ d) :: "" :: (E d).map entryStr))
        cur acc = acc ++ ds.map (fun d => (d, E d))
  | [], _, _, cur, acc, _ => by
    rw [List.flatMap_nil, List.map_nil, List.append_nil]
    rfl
  | d :: ds, hnd, hgood, cur, acc, hacc => by
    have hd := hgood d (List.mem_cons_self _ _)
    have hdacc := hacc d (List.mem_cons_self _ _)
    rw [List.flatMap_cons, List.cons_append, List.cons_append,
      parseLogGo_date ("### " ++ d) (pyRstrip_dateline d hd.1)
        (beq_eq_false_iff_ne.mpr (dateline_ne_empty d)) (logDate?_std d hd.1),
      hdacc, if_neg Bool.false_ne_true, parseLogGo_blank,
      parseLogGo_entries (E d) hd.2 _ d acc [] hdacc,
      List.nil_append]
    rw [parseLogGo_run E ds (List.nodup_cons.mp hnd).2
      (fun x hx => hgood x (List.mem_cons_of_mem _ hx)) (some d)
      (acc ++ [(d, E d)]) ?hacc2]
    · rw [List.map_cons, List.append_assoc]
      rfl
    case hacc2 =>
      intro d' hd'
      unfold logHasDate
      rw [List.any_append,
        show acc.any (fun kv => kv.1 == d') = false from
          hacc d' (List.mem_cons_of_mem _ hd')]
      rw [show [(d, E d)].any (fun kv => kv.1 == d') = false from by
        simp only [List.any_cons, List.any_nil, Bool.or_false]
        exact beq_eq_false_iff_ne.mpr
          (fun he => absurd (he ▸ hd') (List.nodup_cons.mp hnd).1)]
      rfl

theorem insertBy_perm {α : Type _} (le : α → α → Bool) (x : α) (l : List α) :
    (insertBy le x l).Perm (x :: l) := by
  induction l with
  | nil => exact List.Perm.refl _
  | cons y t ih =>
    unfold insertBy
    by_cases hle : le x y = true
    · rw [if_pos hle]
    · rw [if_neg hle]
      exact ((ih.cons y).trans (List.Perm.swap x y t))

theorem sortBy_perm {α : Type _} (le : α → α → Bool) (l : List α) :
    (sortBy le l).Perm l := by
  induction l with
  | nil => exact List.Perm.refl _
  | cons x t ih =>
    unfold sortBy
    exact (insertBy_perm le x (sortBy le t)).trans (ih.cons x)

theorem logEntriesFor_map (E : String → List LogEntry) (ds : List String)
    (d : String) :
    logEntriesFor (ds.map (fun x => (x, E x))) d =
      if d ∈ ds then E d else [] := by
  induction ds with
  | nil => rfl
  | cons x t ih =>
    by_cases hxd : x = d
    · subst hxd
      have hfind : List.find? (fun kv => kv.1 == x)
          ((x, E x) :: t.map (fun y => (y, E y))) = some (x, E x) :=
        List.find?_cons_of_pos _ (beq_self_eq_true x)
      unfold logEntriesFor
      rw [List.map_cons, hfind, if_pos (List.mem_cons_self x t)]
    · have hfind : List.find? (fun kv => kv.1 == d)
          ((x, E x) :: t.map (fun y => (y, E y))) =
          List.find? (fun kv => kv.1 == d) (t.map (fun y => (y, E y))) :=
        List.find?_cons_of_neg _ (by
          intro hc
          exact hxd (beq_iff_eq.mp hc))
      unfold logEntriesFor
      rw [List.map_cons, hfind]
      unfold logEntriesFor at ih
      rw [ih]
      by_cases hdt : d ∈ t
      · rw [if_pos hdt, if_pos (List.mem_cons_of_mem x hdt)]
      · rw [if_neg hdt, if_neg (by
          intro hc
          rcases List.mem_cons.mp hc with he | hm
          · exact hxd he.symm
          · exact hdt hm)]

theorem logHasDate_map (E : String → List LogEntry) (ds : List String)
    (d : String) :
    logHasDate (ds.map (fun x => (x, E x))) d = ds.any (fun x => x == d) := by
  induction ds with
  | nil => rfl
  | cons x t ih =>
    unfold logHasDate
    rw [List.map_cons, List.any_cons, List.any_cons]
    unfold logHasDate at ih
    rw [ih]

theorem logHasDate_eq_mem (log : Log) (d : String) :
    logHasDate log d = true ↔ d ∈ log.map Prod.fst := by
  unfold logHasDate
  rw [List.any_eq_true]
  constructor
  · rintro ⟨kv, hkv, hb⟩
    exact List.mem_map.mpr ⟨kv, hkv, beq_iff_eq.mp hb⟩
  · intro h
    rcases List.mem_map.mp h with ⟨kv, hkv, hfst⟩
    exact ⟨kv, hkv, beq_iff_eq.mpr hfst⟩

theorem logEntriesFor_not_mem (log : Log) (d : String)
    (h : ¬d ∈ log.map Prod.fst) : logEntriesFor log d = [] := by
  unfold logEntriesFor
  rw [List.find?_eq_none.mpr (fun kv hkv => by
    intro hc
    exact h (List.mem_map.mpr ⟨kv, hkv, beq_iff_eq.mp hc⟩))]

theorem find?_pred_of_eq_some {α : Type _} {p : α → Bool} :
    ∀ {l : List α} {a : α}, l.find? p = some a → p a = true
  | [], _, h => Option.noConfusion h
  | x :: t, a, h => by
    cases hp : p x
    · rw [List.find?_cons_of_neg _ (by rw [hp]; exact Bool.false_ne_true)] at h
      exact find?_pred_of_eq_some h
    · rw [List.find?_cons_of_pos _ hp] at h
      rw [← Option.some.inj h]
      exact hp

theorem logEntriesFor_spec (log : Log) (d : String) (hd : d ∈ log.map Prod.fst) :
    ∃ kv ∈ log, kv.1 = d ∧ logEntriesFor log d = kv.2 := by
  rcases hf : log.find? (fun kv => kv.1 == d) with _ | kv
  · exfalso
    rcases List.mem_map.mp hd with ⟨kv2, hkv2, hfst⟩
    apply List.find?_eq_none.mp hf kv2 hkv2
    rw [hfst]
    exact beq_self_eq_true d
  · have hp := find?_pred_of_eq_some hf
    refine ⟨kv, List.mem_of_find?_eq_some hf, beq_iff_eq.mp hp, ?_⟩
    unfold logEntriesFor
    rw [hf]

theorem entryStr_getLast (e : LogEntry) {c : Char}
    (hc : e.text.toList.getLast? = some c) :
    (entryStr e).toList.getLast? = some c := by
  rw [entryStr_toList,
    show '-' :: ' ' :: '*' :: '*' :: (e.time.toList ++ ('*' :: '*' :: ' ' ::
      e.text.toList)) = (('-' :: ' ' :: '*' :: '*' :: e.time.toList) ++
      ['*', '*', ' ']) ++ e.text.toList from by simp,
    List.getLast?_append_of_ne_nil _ (by
      intro he
      rw [he] at hc
      exact Option.noConfusion hc)]
  exact hc

theorem flatMap_log_no_newline (E : String → List LogEntry) (ds : List String)
    (h : ∀ d ∈ ds, DateOK d ∧ ∀ e ∈ E d, TimeOK e.time ∧ RTextOK e.text) :
    ∀ s ∈ ds.flatMap (fun d => ("### " ++ d) :: "" :: (E d).map entryStr),
      ¬('\n' : Char) ∈ s.toList := by
  intro s hs
  rcases List.mem_flatMap.mp hs with ⟨d, hd, hsd⟩
  have hgd := h d hd
  rcases List.mem_cons.mp hsd with rfl | hsd
  · exact dateline_no_newline d hgd.1
  rcases List.mem_cons.mp hsd with rfl | hsd
  · intro hmem
    exact absurd hmem (by decide)
  rcases List.mem_map.mp hsd with ⟨e, he, rfl⟩
  exact entryStr_no_newline e (hgd.2 e he).1 (hgd.2 e he).2.2.1

theorem flatMap_log_header_none (E : String → List LogEntry) (ds : List String) :
    ∀ s ∈ ds.flatMap (fun d => ("### " ++ d) :: "" :: (E d).map entryStr),
      sectionHeader? s = none := by
  intro s hs
  rcases List.mem_flatMap.mp hs with ⟨d, hd, hsd⟩
  rcases List.mem_cons.mp hsd with rfl | hsd
  · exact sectionHeader?_none_of (strStartsWith_dateline_false d)
  rcases List.mem_cons.mp hsd with rfl | hsd
  · exact sectionHeader?_empty
  rcases List.mem_map.mp hsd with ⟨e, he, rfl⟩
  exact sectionHeader?_none_of (strStartsWith_hash_false (entryStr_toList e)
    (by decide))

theorem logDatesDesc_mem (log : Log) (d : String) :
    d ∈ logDatesDesc log ↔ d ∈ log.map Prod.fst :=
  mem_sortBy _ d _

theorem logDatesDesc_nodup (log : Log) (hnd : (log.map Prod.fst).Nodup) :
    (logDatesDesc log).Nodup := by
  unfold logDatesDesc
  exact ((sortBy_perm _ _).nodup_iff).mpr hnd

theorem logDatesDesc_ne_nil (log : Log) (hlne : log ≠ []) :
    logDatesDesc log ≠ [] := by
  rcases hl2 : log with _ | ⟨kv0, r⟩
  · exact absurd hl2 hlne
  apply List.ne_nil_of_mem ((logDatesDesc_mem (kv0 :: r) kv0.1).mpr ?_)
  rw [List.map_cons]
  exact List.mem_cons_self _ _

theorem logDatesDesc_good (log : Log)
    (hgood : ∀ kv ∈ log, DateOK kv.1 ∧ kv.2 ≠ [] ∧
      ∀ e ∈ kv.2, TimeOK e.time ∧ RTextOK e.text) :
    ∀ d ∈ logDatesDesc log, DateOK d ∧ logEntriesFor log d ≠ [] ∧
      ∀ e ∈ logEntriesFor log d, TimeOK e.time ∧ RTextOK e.text := by
  intro d hd
  obtain ⟨kv, hkv, hfst, hent⟩ :=
    logEntriesFor_spec log d ((logDatesDesc_mem log d).mp hd)
  have hg := hgood kv hkv
  exact ⟨hfst ▸ hg.1, by rw [hent]; exact hg.2.1, by rw [hent]; exact hg.2.2⟩

theorem splitLines_serialize_log (log : Log) (hlne : log ≠ [])
    (hgood : ∀ kv ∈ log, DateOK kv.1 ∧ kv.2 ≠ [] ∧
      ∀ e ∈ kv.2, TimeOK e.time ∧ RTextOK e.text) :
    splitLines (serialize_log log) =
      (logDatesDesc log).flatMap
        (fun d => ("### " ++ d) :: "" :: (logEntriesFor log d).map entryStr) := by
  unfold serialize_log
  rw [if_neg (by simp [List.isEmpty_iff, hlne])]
  rw [show (fun d => ["### " ++ d, ""] ++ (logEntriesFor log d).map entryStr) =
    (fun d => ("### " ++ d) :: "" :: (logEntriesFor log d).map entryStr) from rfl]
  apply splitLines_joinLines_singles
  · rcases hds : logDatesDesc log with _ | ⟨d0, ds'⟩
    · exact absurd hds (logDatesDesc_ne_nil log hlne)
    rw [List.flatMap_cons]
    simp
  · exact flatMap_log_no_newline (logEntriesFor log) (logDatesDesc log)
      (fun d hd => ⟨(logDatesDesc_good log hgood d hd).1,
        (logDatesDesc_good log hgood d hd).2.2⟩)

theorem parse_log_serialize (log : Log) (hnd : (log.map Prod.fst).Nodup)
    (hgood : ∀ kv ∈ log, DateOK kv.1 ∧ kv.2 ≠ [] ∧
      ∀ e ∈ kv.2, TimeOK e.time ∧ RTextOK e.text) :
    parse_log (serialize_log log) =
      (logDatesDesc log).map (fun d => (d, logEntriesFor log d)) := by
  cases hemp : log.isEmpty
  · have hlne : log ≠ [] := by
      intro he
      rw [he] at hemp
      exact Bool.noConfusion hemp
    unfold parse_log
    rw [splitLines_serialize_log log hlne hgood]
    rw [parseLogGo_run (logEntriesFor log) (logDatesDesc log)
      (logDatesDesc_nodup log hnd)
      (fun d hd => ⟨(logDatesDesc_good log hgood d hd).1,
        (logDatesDesc_good log hgood d hd).2.2⟩)
      none [] (fun d _ => rfl)]
    rw [List.nil_append]
  · rw [List.isEmpty_iff.mp hemp]
    decide

theorem pyStrip_serialize_log (log : Log) (hlne : log ≠ [])
    (hgood : ∀ kv ∈ log, DateOK kv.1 ∧ kv.2 ≠ [] ∧
      ∀ e ∈ kv.2, TimeOK e.time ∧ RTextOK e.text) :
    pyStrip (serialize_log log) = serialize_log log := by
  have hjoin : serialize_log log = joinLines ((logDatesDesc log).flatMap
      (fun d => ("### " ++ d) :: "" :: (logEntriesFor log d).map entryStr)) := by
    unfold serialize_log
    rw [if_neg (by simp [List.isEmpty_iff, hlne])]
    rfl
  rw [hjoin]
  apply str_toList_inj
  show pyStripList (joinLines _).toList = (joinLines _).toList
  apply pyStripList_eq_self_of_ends
  · intro c hc
    rcases hds : logDatesDesc log with _ | ⟨d0, ds'⟩
    · exact absurd hds (logDatesDesc_ne_nil log hlne)
    rw [hds, List.flatMap_cons, List.cons_append] at hc
    rw [joinLines_toList_head ("### " ++ d0) _
      (show ("### " ++ d0).toList = '#' :: ('#' :: '#' :: ' ' :: d0.toList) from by
        rw [toList_append]
        rfl)] at hc
    rw [show c = '#' from (Option.some.inj hc).symm]
    decide
  · intro c hc
    rcases (logDatesDesc log).eq_nil_or_concat with hds | ⟨ds', dL, hds⟩
    · exact absurd hds (logDatesDesc_ne_nil log hlne)
    have hgL := logDatesDesc_good log hgood dL (by
      rw [hds, List.concat_eq_append]
      exact List.mem_append_right _ (List.mem_cons_self _ _))
    rcases (logEntriesFor log dL).eq_nil_or_concat with hes | ⟨es', eL, hes⟩
    · exact absurd hes hgL.2.1
    have heL := hgL.2.2 eL (by
      rw [hes, List.concat_eq_append]
      exact List.mem_append_right _ (List.mem_cons_self _ _))
    have htne : eL.text.toList ≠ [] := string_toList_ne_nil heL.2.1
    obtain ⟨cz, hcz⟩ : ∃ cz, eL.text.toList.getLast? = some cz := by
      rcases ht : eL.text.toList with _ | ⟨x, xs⟩
      · exact absurd ht htne
      · exact ⟨(x :: xs).getLast (by simp), List.getLast?_eq_getLast _ _⟩
    have hczw : isPyWs cz = false := last_not_ws_of_rstrip_self_str heL.2.2.2 cz hcz
    rw [hds, List.concat_eq_append, List.flatMap_append, List.flatMap_cons,
      List.flatMap_nil, List.append_nil, hes, List.concat_eq_append,
      List.map_append, List.map_singleton] at hc
    rw [show ("### " ++ dL) :: "" :: ((es'.map entryStr) ++ [entryStr eL]) =
      (("### " ++ dL) :: "" :: es'.map entryStr) ++ [entryStr eL] from by simp] at hc
    rw [← List.append_assoc] at hc
    rw [joinLines_toList_getLast _ _ (entryStr_getLast eL hcz)] at hc
    rw [show c = cz from (Option.some.inj hc).symm]
    exact hczw


theorem splitLines_serialize_notes (notes : List Note) (hne : notes ≠ [])
    (h : ∀ n ∈ notes, TextOK n.text ∧ HashOK n.hash) :
    splitLines (serialize_notes notes) = notes.map noteStr := by
  unfold serialize_notes
  rw [if_neg (by simp [List.isEmpty_iff, hne])]
  apply splitLines_joinLines_singles _ (by simp [hne])
  intro s hs
  rcases List.mem_map.mp hs with ⟨n, hn, rfl⟩
  exact noteStr_no_newline n (h n hn).1.2.1 (h n hn).2

theorem splitLines_serialize_todos (todos : List Todo) (hne : todos ≠ [])
    (h : ∀ t ∈ todos, TextOK t.text ∧ HashOK t.hash) :
    splitLines (serialize_todos todos) = todos.map todoStr := by
  unfold serialize_todos
  rw [if_neg (by simp [List.isEmpty_iff, hne])]
  apply splitLines_joinLines_singles _ (by simp [hne])
  intro s hs
  rcases List.mem_map.mp hs with ⟨t, ht, rfl⟩
  exact todoStr_no_newline t (h t ht).1.2.1 (h t ht).2

theorem parse_sections_serialize (t : Thread) (hb : BodyOK t.body)
    (hn : ∀ n ∈ t.notes, TextOK n.text ∧ HashOK n.hash)
    (htd : ∀ td ∈ t.todos, TextOK td.text ∧ HashOK td.hash)
    (hlg : ∀ kv ∈ t.log, DateOK kv.1 ∧ kv.2 ≠ [] ∧
      ∀ e ∈ kv.2, TimeOK e.time ∧ RTextOK e.text) :
    parse_sections (serialize_thread t).content =
      if t.notes.isEmpty then
        [("Body", t.body), ("Todo", serialize_todos t.todos),
         ("Log", serialize_log t.log)]
      else
        [("Body", t.body), ("Notes", serialize_notes t.notes),
         ("Todo", serialize_todos t.todos), ("Log", serialize_log t.log)] := by
  have hS : (serialize_thread t).content = joinLines
      (["## Body", ""] ++ (if t.body == "" then [] else [t.body, ""])
        ++ (if t.notes.isEmpty then []
            else ["## Notes", "", serialize_notes t.notes, ""])
        ++ ["## Todo", ""]
        ++ (if t.todos.isEmpty then [] else [serialize_todos t.todos, ""])
        ++ ["## Log", ""]
        ++ (if t.log.isEmpty then [] else [serialize_log t.log])) := rfl
  unfold parse_sections
  rw [hS, splitLines_joinLines _ (by simp)]
  rw [List.flatMap_append, List.flatMap_append, List.flatMap_append,
    List.flatMap_append, List.flatMap_append, List.flatMap_append]
  rw [show (["## Body", ""] : List String).flatMap splitLines = ["## Body", ""]
      from by decide,
    show (["## Todo", ""] : List String).flatMap splitLines = ["## Todo", ""]
      from by decide,
    show (["## Log", ""] : List String).flatMap splitLines = ["## Log", ""]
      from by decide]
  rw [apply_ite (fun (l : List String) => l.flatMap splitLines),
    apply_ite (fun (l : List String) => l.flatMap splitLines),
    apply_ite (fun (l : List String) => l.flatMap splitLines),
    apply_ite (fun (l : List String) => l.flatMap splitLines)]
  rw [show (([t.body, ""] : List String).flatMap splitLines) =
      splitLines t.body ++ [""] from by
    rw [List.flatMap_cons, List.flatMap_cons, List.flatMap_nil, List.append_nil,
      show splitLines "" = [""] from by decide]]
  rw [show ((["## Notes", "", serialize_notes t.notes, ""] : List String).flatMap
      splitLines) = "## Notes" :: "" :: (splitLines (serialize_notes t.notes)
      ++ [""]) from by
    rw [List.flatMap_cons, List.flatMap_cons, List.flatMap_cons,
      List.flatMap_cons, List.flatMap_nil, List.append_nil,
      show splitLines "" = [""] from by decide,
      show splitLines "## Notes" = ["## Notes"] from by decide]
    simp]
  rw [show (([serialize_todos t.todos, ""] : List String).flatMap splitLines) =
      splitLines (serialize_todos t.todos) ++ [""] from by
    rw [List.flatMap_cons, List.flatMap_cons, List.flatMap_nil, List.append_nil,
      show splitLines "" = [""] from by decide]]
  rw [show (([serialize_log t.log] : List String).flatMap splitLines) =
      splitLines (serialize_log t.log) from by
    rw [List.flatMap_cons, List.flatMap_nil, List.append_nil]]
  rw [show (([] : List String).flatMap splitLines) = [] from by
    rw [List.flatMap_nil]]
  have hBlines : ∀ l ∈ ("" :: (if t.body == "" then []
      else splitLines t.body ++ [""])), sectionHeader? l = none := by
    intro l hl
    rcases List.mem_cons.mp hl with rfl | hl
    · exact sectionHeader?_empty
    by_cases hbe : t.body == ""
    · rw [if_pos hbe] at hl
      exact absurd hl (List.not_mem_nil l)
    · rw [if_neg hbe] at hl
      rcases List.mem_append.mp hl with hl | hl
      · exact sectionHeader?_none_of (hb.2 l hl)
      · rw [List.mem_singleton.mp hl]
        exact sectionHeader?_empty
  have hTDlines : ∀ l ∈ ("" :: (if t.todos.isEmpty then []
      else splitLines (serialize_todos t.todos) ++ [""])),
      sectionHeader? l = none := by
    intro l hl
    rcases List.mem_cons.mp hl with rfl | hl
    · exact sectionHeader?_empty
    cases hte : t.todos.isEmpty
    · rw [hte, if_neg Bool.false_ne_true] at hl
      rcases List.mem_append.mp hl with hl | hl
      · rw [splitLines_serialize_todos t.todos
          (by intro he; rw [he] at hte; exact Bool.noConfusion hte) htd] at hl
        rcases List.mem_map.mp hl with ⟨td, htd2, rfl⟩
        exact sectionHeader?_none_of
          (strStartsWith_hash_false (todoStr_toList td) (by decide))
      · rw [List.mem_singleton.mp hl]
        exact sectionHeader?_empty
    · rw [hte, if_pos rfl] at hl
      exact absurd hl (List.not_mem_nil l)
  have hLGlines : ∀ l ∈ ("" :: (if t.log.isEmpty then []
      else splitLines (serialize_log t.log))), sectionHeader? l = none := by
    intro l hl
    rcases List.mem_cons.mp hl with rfl | hl
    · exact sectionHeader?_empty
    cases hte : t.log.isEmpty
    · rw [hte, if_neg Bool.false_ne_true] at hl
      rw [splitLines_serialize_log t.log
        (by intro he; rw [he] at hte; exact Bool.noConfusion hte) hlg] at hl
      exact flatMap_log_header_none _ _ l hl
    · rw [hte, if_pos rfl] at hl
      exact absurd hl (List.not_mem_nil l)
  have hBody : pyStrip (joinLines ("" :: (if t.body == "" then []
      else splitLines t.body ++ [""]))) = t.body := by
    by_cases hbe : t.body == ""
    · rw [if_pos hbe, beq_iff_eq.mp hbe]
      decide
    · rw [if_neg hbe]
      exact strip_wrap t.body hb.1
  have hTodo : pyStrip (joinLines ("" :: (if t.todos.isEmpty then []
      else splitLines (serialize_todos t.todos) ++ [""]))) =
      serialize_todos t.todos := by
    cases hte : t.todos.isEmpty
    · have htdne : t.todos ≠ [] := by
        intro he
        rw [he] at hte
        exact Bool.noConfusion hte
      rw [if_neg Bool.false_ne_true]
      exact strip_wrap (serialize_todos t.todos) (pyStrip_serialize_todos _ htdne)
    · rw [if_pos rfl, List.isEmpty_iff.mp hte]
      decide
  have hLog : pyStrip (joinLines ("" :: (if t.log.isEmpty then []
      else splitLines (serialize_log t.log)))) = serialize_log t.log := by
    cases hte : t.log.isEmpty
    · have hlgne : t.log ≠ [] := by
        intro he
        rw [he] at hte
        exact Bool.noConfusion hte
      rw [if_neg Bool.false_ne_true]
      exact strip_wrap_final (serialize_log t.log)
        (pyStrip_serialize_log _ hlgne hlg)
    · rw [if_pos rfl, List.isEmpty_iff.mp hte]
      decide
  cases hne : t.notes.isEmpty
  · have hnne : t.notes ≠ [] := by
      intro he
      rw [he] at hne
      exact Bool.noConfusion hne
    rw [if_neg Bool.false_ne_true, if_neg Bool.false_ne_true]
    rw [show ((["## Body", ""] ++ (if t.body == "" then []
        else splitLines t.body ++ [""])
        ++ ("## Notes" :: "" :: (splitLines (serialize_notes t.notes) ++ [""]))
        ++ ["## Todo", ""]
        ++ (if t.todos.isEmpty then []
          else splitLines (serialize_todos t.todos) ++ [""])
        ++ ["## Log", ""]
        ++ (if t.log.isEmpty then [] else splitLines (serialize_log t.log)))
        : List String) =
        "## Body" :: (("" :: (if t.body == "" then []
          else splitLines t.body ++ [""])) ++ ("## Notes" ::
        (("" :: (splitLines (serialize_notes t.notes) ++ [""])) ++ ("## Todo" ::
        (("" :: (if t.todos.isEmpty then []
          else splitLines (serialize_todos t.todos) ++ [""])) ++ ("## Log" ::
        ("" :: (if t.log.isEmpty then []
          else splitLines (serialize_log t.log))))))))) from by
      simp [List.append_assoc]]
    rw [buildSections_quad_notes _ _ _ _ hBlines (by
      intro l hl
      rcases List.mem_cons.mp hl with rfl | hl
      · exact sectionHeader?_empty
      rcases List.mem_append.mp hl with hl | hl
      · rw [splitLines_serialize_notes t.notes hnne hn] at hl
        rcases List.mem_map.mp hl with ⟨n, hn2, rfl⟩
        exact sectionHeader?_none_of
          (strStartsWith_hash_false (noteStr_toList n) (by decide))
      · rw [List.mem_singleton.mp hl]
        exact sectionHeader?_empty) hTDlines hLGlines]
    rw [hBody, hTodo, hLog,
      strip_wrap (serialize_notes t.notes) (pyStrip_serialize_notes _ hnne)]
  · rw [if_pos rfl, if_pos rfl, List.append_nil]
    rw [show ((["## Body", ""] ++ (if t.body == "" then []
        else splitLines t.body ++ [""])
        ++ ["## Todo", ""]
        ++ (if t.todos.isEmpty then []
          else splitLines (serialize_todos t.todos) ++ [""])
        ++ ["## Log", ""]
        ++ (if t.log.isEmpty then [] else splitLines (serialize_log t.log)))
        : List String) =
        "## Body" :: (("" :: (if t.body == "" then []
          else splitLines t.body ++ [""])) ++ ("## Todo" ::
        (("" :: (if t.todos.isEmpty then []
          else splitLines (serialize_todos t.todos) ++ [""])) ++ ("## Log" ::
        ("" :: (if t.log.isEmpty then []
          else splitLines (serialize_log t.log))))))) from by
      simp [List.append_assoc]]
    rw [buildSections_quad_noNotes _ _ _ hBlines hTDlines hLGlines]
    rw [hBody, hTodo, hLog]


theorem bool_eq_of_iff {a b : Bool} (h : a = true ↔ b = true) : a = b := by
  cases a <;> cases b <;> simp_all

/-- C1: for a record satisfying the data-model invariants TOGETHER WITH the
text well-formedness conditions the codec grammar needs (stripped single-line
note, todo and log texts, a stripped body with no heading-like line), decoding
the encoding succeeds and restores every field: id, name, desc, status, body,
the notes and todos in order, and the log as a mapping from dates to their
entry lists in stored order (the insertion order of the date keys themselves
is normalized to descending date order by the serializer). -/
theorem thread_round_trip (t : Thread) (h : WellFormed t) :
    ∃ u, load_thread (serialize_thread t) = .ok u ∧
      u.id = t.id ∧ u.name = t.name ∧ u.desc = t.desc ∧ u.status = t.status ∧
      u.body = t.body ∧ u.notes = t.notes ∧ u.todos = t.todos ∧
      (∀ d, logHasDate u.log d = logHasDate t.log d) ∧
      (∀ d, logEntriesFor u.log d = logEntriesFor t.log d) := by
  obtain ⟨hid, hstat, hbody, hnotes, htodos, hnodup, hlog⟩ := h
  have hsec := parse_sections_serialize t hbody hnotes htodos hlog
  have hgB : sectGet (parse_sections (serialize_thread t).content) "Body" ""
      = t.body := by
    rw [hsec]
    cases hne : t.notes.isEmpty
    · rw [if_neg Bool.false_ne_true]
      rfl
    · rw [if_pos rfl]
      rfl
  have hgN : parse_notes (sectGet (parse_sections (serialize_thread t).content)
      "Notes" "") = t.notes := by
    rw [hsec]
    cases hne : t.notes.isEmpty
    · rw [if_neg Bool.false_ne_true]
      show parse_notes (serialize_notes t.notes) = t.notes
      exact parse_notes_serialize t.notes hnotes
    · rw [if_pos rfl, List.isEmpty_iff.mp hne]
      rfl
  have hgT : parse_todos (sectGet (parse_sections (serialize_thread t).content)
      "Todo" "") = t.todos := by
    rw [hsec]
    cases hne : t.notes.isEmpty
    · rw [if_neg Bool.false_ne_true]
      show parse_todos (serialize_todos t.todos) = t.todos
      exact parse_todos_serialize t.todos htodos
    · rw [if_pos rfl]
      show parse_todos (serialize_todos t.todos) = t.todos
      exact parse_todos_serialize t.todos htodos
  have hgL : parse_log (sectGet (parse_sections (serialize_thread t).content)
      "Log" "") = (logDatesDesc t.log).map (fun d => (d, logEntriesFor t.log d))
      := by
    rw [hsec]
    cases hne : t.notes.isEmpty
    · rw [if_neg Bool.false_ne_true]
      show parse_log (serialize_log t.log) = _
      exact parse_log_serialize t.log hnodup hlog
    · rw [if_pos rfl]
      show parse_log (serialize_log t.log) = _
      exact parse_log_serialize t.log hnodup hlog
  refine ⟨{ id := t.id, name := t.name, desc := t.desc, status := t.status,
            body := t.body, notes := t.notes, todos := t.todos,
            log := (logDatesDesc t.log).map
              (fun d => (d, logEntriesFor t.log d)) },
    ?_, rfl, rfl, rfl, rfl, rfl, rfl, rfl, ?_, ?_⟩
  · have hA : load_thread (serialize_thread t) = Except.ok
        { id := t.id, name := t.name, desc := t.desc, status := t.status,
          body := sectGet (parse_sections (serialize_thread t).content) "Body" "",
          notes := parse_notes
            (sectGet (parse_sections (serialize_thread t).content) "Notes" ""),
          todos := parse_todos
            (sectGet (parse_sections (serialize_thread t).content) "Todo" ""),
          log := parse_log
            (sectGet (parse_sections (serialize_thread t).content) "Log" "") }
        := rfl
    rw [hA, hgB, hgN, hgT, hgL]
  · intro d
    show logHasDate ((logDatesDesc t.log).map
      (fun d => (d, logEntriesFor t.log d))) d = logHasDate t.log d
    rw [logHasDate_map]
    apply bool_eq_of_iff
    rw [List.any_eq_true, logHasDate_eq_mem]
    constructor
    · rintro ⟨x, hx, hb⟩
      exact (logDatesDesc_mem t.log d).mp (beq_iff_eq.mp hb ▸ hx)
    · intro hd
      exact ⟨d, (logDatesDesc_mem t.log d).mpr hd, beq_self_eq_true d⟩
  · intro d
    show logEntriesFor ((logDatesDesc t.log).map
      (fun d => (d, logEntriesFor t.log d))) d = logEntriesFor t.log d
    rw [logEntriesFor_map]
    by_cases hd : d ∈ logDatesDesc t.log
    · rw [if_pos hd]
    · rw [if_neg hd]
      exact (logEntriesFor_not_mem t.log d
        (fun hm => hd ((logDatesDesc_mem t.log d).mpr hm))).symm

/-- C1 counterexample: the record with id abcdef, name x and body consisting
of x followed by a trailing space satisfies the data-model invariants exactly
as the claim lists them, yet decoding its encoding yields a record whose body
is x without the trailing space: the round trip is not the identity on the
set of records the claim quantifies over. -/
theorem round_trip_fails_on_unstripped_body :
    ClaimDataInvariants { id := "abcdef", name := "x", body := "x " } ∧
    load_thread (serialize_thread { id := "abcdef", name := "x", body := "x " })
      = .ok { id := "abcdef", name := "x", body := "x" } ∧
    ({ id := "abcdef", name := "x", body := "x " } : Thread) ≠
      { id := "abcdef", name := "x", body := "x" } := by
  refine ⟨by decide, by decide, by decide⟩

/-- Witness: the round-trip theorem applied to the concrete record tBig,
whose well-formedness is checked by evaluation. -/
theorem thread_round_trip_witness :
    WellFormed tBig ∧
    ∃ u, load_thread (serialize_thread tBig) = .ok u ∧
      u.id = tBig.id ∧ u.name = tBig.name ∧ u.desc = tBig.desc ∧
      u.status = tBig.status ∧ u.body = tBig.body ∧ u.notes = tBig.notes ∧
      u.todos = tBig.todos ∧
      (∀ d, logHasDate u.log d = logHasDate tBig.log d) ∧
      (∀ d, logEntriesFor u.log d = logEntriesFor tBig.log d) :=
  ⟨by decide, thread_round_trip tBig (by decide)⟩

end Threads
